import Mathlib

/-!
Verification of the crypto-chat-app conversational core.

This file gives a shallow embedding of the repository's intent parser
(`src/utils/messageParser.js`), data client (`src/services/apiManager.js`
and the raw `cryptoAPI` wrapper), and portfolio store
(`src/hooks/usePortfolio.js`), together with theorems settling the
specification claims about them.

Strings are modelled as `List Char` (with `String` wrappers), JavaScript
numbers as `ℚ`, clock readings (`Date.now()`) as `ℕ` milliseconds, and
fallible asynchronous operations as `Except String`.  The JavaScript
regular expressions of the parser are embedded as explicit backtracking
matchers over `List Char`, mirroring unanchored leftmost search,
alternation order, greedy/lazy quantifiers and case-insensitive literal
comparison.
-/

/-! ### Character classes and primitives (JS regex semantics) -/

/-- ASCII lower-casing, as performed by `/i` matching and `toLowerCase`
on the ASCII inputs in scope. -/
def lcc (c : Char) : Char :=
  if 'A' ≤ c ∧ c ≤ 'Z' then Char.ofNat (c.toNat + 32) else c

/-- ASCII upper-casing (for `toUpperCase` on coin symbols). -/
def ucc (c : Char) : Char :=
  if 'a' ≤ c ∧ c ≤ 'z' then Char.ofNat (c.toNat - 32) else c

/-- JS `\s` (the whitespace characters relevant to the ASCII inputs). -/
def jsSpace (c : Char) : Bool :=
  c = ' ' || c = '\t' || c = '\n' || c = '\r' || c = '\x0b' || c = '\x0c'

/-- JS `\w`: ASCII letter, digit or underscore. -/
def wordChar (c : Char) : Bool :=
  ('a' ≤ c && c ≤ 'z') || ('A' ≤ c && c ≤ 'Z') || ('0' ≤ c && c ≤ '9') || c = '_'

/-- JS `\d`. -/
def digitCh (c : Char) : Bool :=
  '0' ≤ c && c ≤ '9'

/-- JS `.` (any character except a line terminator). -/
def dotCh (c : Char) : Bool :=
  !(c = '\n' || c = '\r')

/-- Case-insensitive literal prefix match: on success, returns the rest of
the input after the literal. -/
def stripCI : List Char → List Char → Option (List Char)
  | [], s => some s
  | _ :: _, [] => none
  | a :: as, c :: cs => if lcc a = lcc c then stripCI as cs else none

/-- The apostrophe character (for the `what's` literals). -/
def apos : Char := Char.ofNat 39

/-! ### Backtracking matcher combinators -/

/-- Try an ordered list of literal alternatives at the current position;
the first alternative whose literal matches and whose continuation `k`
succeeds wins (JS alternation with backtracking into the continuation). -/
def tryAlts (alts : List (List Char)) (k : List Char → Option α) (s : List Char) :
    Option α :=
  match alts with
  | [] => none
  | a :: rest =>
    match stripCI a s with
    | some r =>
      match k r with
      | some x => some x
      | none => tryAlts rest k s
    | none => tryAlts rest k s

/-- Unanchored leftmost search: try the alternatives (with continuation)
at each position from the left. -/
def searchAlts (alts : List (List Char)) (k : List Char → Option α) :
    List Char → Option α
  | [] => tryAlts alts k []
  | c :: rest =>
    match tryAlts alts k (c :: rest) with
    | some x => some x
    | none => searchAlts alts k rest

/-- After at least one whitespace char has been consumed: greedily consume
more whitespace, backtracking into the continuation `k` (JS `\s+` followed
by `k`). -/
def spMore (k : List Char → Option α) : List Char → Option α
  | [] => k []
  | c :: cs =>
    if jsSpace c then
      match spMore k cs with
      | some x => some x
      | none => k (c :: cs)
    else k (c :: cs)

/-- JS `\s+` followed by continuation `k`, with greedy backtracking. -/
def spPlus (k : List Char → Option α) : List Char → Option α
  | [] => none
  | c :: cs => if jsSpace c then spMore k cs else none

/-- JS greedy `(.+)` with nothing after it: captures the maximal run of
`.`-matchable characters (at least one). -/
def dotPlus : List Char → Option (List Char)
  | [] => none
  | c :: cs => if dotCh c then some (c :: cs.takeWhile dotCh) else none

/-- Worker for the lazy capture: `acc` holds the (reversed) capture so
far; at each point the suffix test is tried before extending. -/
def lazyGo (sfx : List Char → Bool) (acc : List Char) : List Char → Option (List Char)
  | [] => if sfx [] then some acc.reverse else none
  | d :: ds =>
    if sfx (d :: ds) then some acc.reverse
    else if dotCh d then lazyGo sfx (d :: acc) ds
    else none

/-- JS lazy `(.+?)` followed by a suffix pattern decided by `sfx`:
returns the shortest non-empty capture of `.`-matchable characters whose
remainder satisfies `sfx`. -/
def lazyCap (sfx : List Char → Bool) : List Char → Option (List Char)
  | [] => none
  | c :: cs => if dotCh c then lazyGo sfx [c] cs else none

/-- Case-insensitive list equality (a literal that must match to the end). -/
def ciEq (a b : List Char) : Bool :=
  a.map lcc = b.map lcc

/-- Decidable case-insensitive substring test, used to state
non-occurrence side conditions and to model `RegExp.test` of patterns
whose trailing parts are optional. -/
def occursCI (p : List Char) : List Char → Bool
  | [] => (stripCI p []).isSome
  | c :: cs => (stripCI p (c :: cs)).isSome || occursCI p cs

/-- `RegExp.test` for an alternation of literals (any alternative occurs
somewhere, case-insensitively). -/
def containsAnyCI (alts : List (List Char)) (s : List Char) : Bool :=
  alts.any (fun a => occursCI a s)

/-! ### The patterns of `messageParser.js`

Each JS regular expression from `PATTERNS` is embedded as a matcher.
`?:`-alternations with an optional character (`what'?s`, `coins?`, …)
are expanded into literal alternatives in JS backtracking order
(option present first). -/

/-- Literal `what's`. -/
def whatAposS : List Char := ['w', 'h', 'a', 't', apos, 's']

/-- Alternatives of `(?:what'?s|what is)` in backtracking order. -/
def whatAlts : List (List Char) :=
  [whatAposS, ['w','h','a','t','s'], ['w','h','a','t',' ','i','s']]

/-- Suffix of `PRICE_TRADING` after the capture: `\s+trading\s+at`
(unanchored, so anything may follow). -/
def sfxPT (r : List Char) : Bool :=
  (spPlus (fun r2 =>
    match stripCI ['t','r','a','d','i','n','g'] r2 with
    | some r3 => spPlus (fun r4 =>
        match stripCI ['a','t'] r4 with
        | some _ => some ()
        | none => none) r3
    | none => none) r).isSome

/-- `PRICE_TRADING`: `/(?:what'?s|what is)\s+(.+?)\s+trading\s+at/i`. -/
def matchPT (s : List Char) : Option (List Char) :=
  searchAlts whatAlts (spPlus (lazyCap sfxPT)) s

/-- Suffix of `PRICE_QUERY` after the capture:
`(?:\s+trading\s+at)?(?:\?)?$`. -/
def sfxPQ (r : List Char) : Bool :=
  r = [] || r = ['?'] ||
  (spPlus (fun r2 =>
    match stripCI ['t','r','a','d','i','n','g'] r2 with
    | some r3 => spPlus (fun r4 =>
        match stripCI ['a','t'] r4 with
        | some r5 => if r5 = [] || r5 = ['?'] then some () else none
        | none => none) r3
    | none => none) r).isSome

/-- Alternatives of `PRICE_QUERY`'s opening alternation. -/
def pqAlts : List (List Char) :=
  [whatAposS, ['w','h','a','t','s'], ['w','h','a','t',' ','i','s'],
   ['p','r','i','c','e',' ','o','f'],
   ['c','u','r','r','e','n','t',' ','p','r','i','c','e'],
   ['h','o','w',' ','m','u','c','h',' ','i','s']]

/-- `PRICE_QUERY`:
`/(?:what'?s|what is|price of|current price|how much is)\s+(.+?)(?:\s+trading\s+at)?(?:\?)?$/i`. -/
def matchPQ (s : List Char) : Option (List Char) :=
  searchAlts pqAlts (spPlus (lazyCap sfxPQ)) s

/-- Suffix of `PRICE_SIMPLE` after the capture: `\s+price$`. -/
def sfxPS (r : List Char) : Bool :=
  (spPlus (fun r2 =>
    match stripCI ['p','r','i','c','e'] r2 with
    | some r3 => if r3 = [] then some () else none
    | none => none) r).isSome

/-- `PRICE_SIMPLE`: `/^(.+?)\s+price$/i` (anchored at the start). -/
def matchPS (s : List Char) : Option (List Char) :=
  lazyCap sfxPS s

/-- Trailing words of `ADD_HOLDING`'s optional group, in backtracking
order of `(?:coins?|tokens?)`. -/
def ahTailWords : List (List Char) :=
  [['c','o','i','n','s'], ['c','o','i','n'], ['t','o','k','e','n','s'], ['t','o','k','e','n']]

/-- Suffix of `ADD_HOLDING` after the name capture:
`(?:\s+(?:coins?|tokens?))?$`. -/
def sfxAH (r : List Char) : Bool :=
  r = [] ||
  (spPlus (fun r2 =>
    if ahTailWords.any (fun w => ciEq r2 w) then some () else none) r).isSome

/-- The numeric part `(\d+(?:\.\d+)?)` of `ADD_HOLDING` followed by
`\s+(.+?)(?:\s+(?:coins?|tokens?))?$`; the captures are irrelevant to
`parseMessage` (it re-extracts), so the matcher only reports success. -/
def ahAfterNum (r : List Char) : Option Unit :=
  spPlus (fun r2 =>
    match lazyCap sfxAH r2 with
    | some _ => some ()
    | none => none) r

/-- Fractional part `(?:\.\d+)?` then the rest of `ADD_HOLDING`. -/
def ahFrac (r : List Char) : Option Unit :=
  match r with
  | c :: d :: r2 =>
    if c = '.' && digitCh d then ahAfterNum ((d :: r2).dropWhile digitCh)
    else none
  | _ => none

/-- `\d+(?:\.\d+)?` then the rest of `ADD_HOLDING` (greedy digits; the
fraction is tried first, as JS does). -/
def ahNum : List Char → Option Unit
  | [] => none
  | c :: cs =>
    if digitCh c then
      match ahFrac (cs.dropWhile digitCh) with
      | some x => some x
      | none => ahAfterNum (cs.dropWhile digitCh)
    else none

/-- Verb alternatives of `ADD_HOLDING`. -/
def ahVerbs : List (List Char) :=
  [['i',' ','h','a','v','e'], ['i',' ','o','w','n'], ['a','d','d'], ['b','u','y'],
   ['b','o','u','g','h','t']]

/-- `ADD_HOLDING`:
`/(?:i have|i own|add|buy|bought)\s+(\d+(?:\.\d+)?)\s+(.+?)(?:\s+(?:coins?|tokens?))?$/i`. -/
def matchAH (s : List Char) : Option Unit :=
  searchAlts ahVerbs (spPlus ahNum) s

/-- Alternatives of `PORTFOLIO_VALUE` (a bare `.test`). -/
def pvAlts : List (List Char) :=
  [['p','o','r','t','f','o','l','i','o'],
   ['m','y',' ','h','o','l','d','i','n','g','s'],
   ['t','o','t','a','l',' ','v','a','l','u','e'],
   ['h','o','w',' ','m','u','c','h'],
   ['w','h','a','t',apos,'s',' ','m','y',' ','p','o','r','t','f','o','l','i','o',' ','w','o','r','t','h'],
   ['w','h','a','t','s',' ','m','y',' ','p','o','r','t','f','o','l','i','o',' ','w','o','r','t','h']]

/-- `PORTFOLIO_VALUE.test`: some alternative occurs. -/
def testPV (s : List Char) : Bool :=
  containsAnyCI pvAlts s

/-- Alternatives of `TRENDING`; its optional tail
`\s*(?:coins?|crypto|cryptocurrencies?)?` matches the empty string, so
`.test` reduces to keyword occurrence. -/
def trAlts : List (List Char) :=
  [['t','r','e','n','d','i','n','g'], ['h','o','t'], ['p','o','p','u','l','a','r'],
   ['t','o','p']]

/-- `TRENDING.test`. -/
def testTR (s : List Char) : Bool :=
  containsAnyCI trAlts s

/-- Time-window words of `CHART_REQUEST`'s optional tail:
`7\s*days?|week|weekly`, matched to the end of the input. -/
def chTime (r : List Char) : Bool :=
  (match r with
   | c :: cs =>
     c = '7' && (let r2 := cs.dropWhile jsSpace
                 ciEq r2 ['d','a','y','s'] || ciEq r2 ['d','a','y'])
   | [] => false) ||
  ciEq r ['w','e','e','k'] || ciEq r ['w','e','e','k','l','y']

/-- Suffix of `CHART_REQUEST` after the capture:
`(?:\s+(?:7\s*days?|week|weekly))?$`. -/
def sfxCH (r : List Char) : Bool :=
  r = [] || (spPlus (fun r2 => if chTime r2 then some () else none) r).isSome

/-- After `CHART_REQUEST`'s keyword and `\s+`: optional `for\s+` (tried
first), then the lazy capture. -/
def chAfterSp (r : List Char) : Option (List Char) :=
  match stripCI ['f','o','r'] r with
  | some r2 =>
    match spPlus (lazyCap sfxCH) r2 with
    | some x => some x
    | none => lazyCap sfxCH r
  | none => lazyCap sfxCH r

/-- Keyword alternatives of `CHART_REQUEST`. -/
def chAlts : List (List Char) :=
  [['c','h','a','r','t'], ['g','r','a','p','h'],
   ['p','r','i','c','e',' ','c','h','a','r','t'],
   ['s','h','o','w',' ','c','h','a','r','t']]

/-- `CHART_REQUEST`:
`/(?:chart|graph|price chart|show chart)\s+(?:for\s+)?(.+?)(?:\s+(?:7\s*days?|week|weekly))?$/i`. -/
def matchCH (s : List Char) : Option (List Char) :=
  searchAlts chAlts (spPlus chAfterSp) s

/-- After an `INFO_REQUEST` keyword: `\s+(.+)` with greedy backtracking. -/
def tailInfo (r : List Char) : Option (List Char) :=
  spPlus dotPlus r

/-- Keyword alternatives of `INFO_REQUEST`. -/
def infoAlts : List (List Char) :=
  [['t','e','l','l',' ','m','e',' ','a','b','o','u','t'],
   ['i','n','f','o',' ','a','b','o','u','t'],
   ['i','n','f','o','r','m','a','t','i','o','n',' ','a','b','o','u','t'],
   ['w','h','a','t',' ','i','s']]

/-- `INFO_REQUEST`:
`/(?:tell me about|info about|information about|what is)\s+(.+)/i`. -/
def matchInfo (s : List Char) : Option (List Char) :=
  searchAlts infoAlts tailInfo s

/-- `HELP`: `/^(?:help|what can you do|commands)$/i`. -/
def testHELP (s : List Char) : Bool :=
  ciEq s ['h','e','l','p'] ||
  ciEq s ['w','h','a','t',' ','c','a','n',' ','y','o','u',' ','d','o'] ||
  ciEq s ['c','o','m','m','a','n','d','s']

/-! ### `extractCoinName`, `extractHoldingInfo`, `normalizeCoinName` -/

/-- One word-boundary removal pass (`\bword\b` for each word in `ws`,
replaced by the empty string): maximal `\w`-runs equal to a listed word
are dropped, everything else is kept.  `cur` accumulates the current run
in reverse. -/
def rmw (ws : List (List Char)) (cur : List Char) : List Char → List Char
  | [] => if cur.reverse ∈ ws then [] else cur.reverse
  | c :: cs =>
    if wordChar c then rmw ws (c :: cur) cs
    else (if cur.reverse ∈ ws then [] else cur.reverse) ++ c :: rmw ws [] cs

/-- Word-boundary global replacement by the empty string. -/
def rmWords (ws : List (List Char)) (s : List Char) : List Char :=
  rmw ws [] s

/-- `\s+ → ' '` global replacement; `prev` records whether the previous
kept character was produced by a whitespace run. -/
def collWS (prev : Bool) : List Char → List Char
  | [] => []
  | c :: cs =>
    if jsSpace c then (if prev then collWS true cs else ' ' :: collWS true cs)
    else c :: collWS false cs

/-- JS `String.trim`. -/
def jsTrim (s : List Char) : List Char :=
  ((s.dropWhile jsSpace).reverse.dropWhile jsSpace).reverse

/-- First filler-word list of `extractCoinName`. -/
def ecnW1 : List (List Char) :=
  [['p','r','i','c','e'], ['c','u','r','r','e','n','t'], ['t','r','a','d','i','n','g'],
   ['a','t'], ['n','o','w'], ['t','o','d','a','y'], ['c','u','r','r','e','n','t','l','y']]

/-- Second filler-word list of `extractCoinName`. -/
def ecnW2 : List (List Char) :=
  [['c','r','y','p','t','o'],
   ['c','r','y','p','t','o','c','u','r','r','e','n','c','y']]

/-- `extractCoinName`: lower-case, drop filler words, drop standalone
`token` and `coin`, strip punctuation (`[^\w\s]`), collapse whitespace,
trim. -/
def extractCoinName (s : List Char) : List Char :=
  let s1 := s.map lcc
  let s2 := rmWords ecnW1 s1
  let s3 := rmWords ecnW2 s2
  let s4 := rmWords [['t','o','k','e','n']] s3
  let s5 := rmWords [['c','o','i','n']] s4
  let s6 := s5.filter (fun c => wordChar c || jsSpace c)
  let s7 := collWS false s6
  jsTrim s7

/-- Numeric value of a digit string. -/
def digitsVal (ds : List Char) : ℕ :=
  ds.foldl (fun a c => 10 * a + (c.toNat - 48)) 0

/-- `parseFloat` of the matched `digits(.digits)?` literal, as an exact
rational. -/
def ratVal (ip : List Char) (fp : Option (List Char)) : ℚ :=
  (digitsVal ip : ℚ) +
    (match fp with
     | some f => (digitsVal f : ℚ) / ((10 : ℚ) ^ f.length)
     | none => 0)

/-- `(.+)`-style greedy capture after the number's `\s+` in
`extractHoldingInfo` (same shape as `tailInfo`). -/
def ehiCap (r : List Char) : Option (List Char) :=
  spPlus dotPlus r

/-- Attempt `(\d+(?:\.\d+)?)\s+(.+)` at the current position: greedy
digits, optional fraction (tried first), then whitespace and the greedy
name capture.  Returns (amount literal value, name capture). -/
def ehiHere : List Char → Option (ℚ × List Char)
  | [] => none
  | c :: cs =>
    if digitCh c then
      let ds := c :: cs.takeWhile digitCh
      let r1 := cs.dropWhile digitCh
      match r1 with
      | d :: e :: r2 =>
        if d = '.' && digitCh e then
          match ehiCap ((e :: r2).dropWhile digitCh) with
          | some cap => some (ratVal ds (some (e :: (r2.takeWhile digitCh))), cap)
          | none =>
            match ehiCap r1 with
            | some cap => some (ratVal ds none, cap)
            | none => none
        else
          match ehiCap r1 with
          | some cap => some (ratVal ds none, cap)
          | none => none
      | _ =>
        match ehiCap r1 with
        | some cap => some (ratVal ds none, cap)
        | none => none
    else none

/-- Unanchored leftmost search of `extractHoldingInfo`'s regex. -/
def ehiSearch : List Char → Option (ℚ × List Char)
  | [] => none
  | c :: cs =>
    match ehiHere (c :: cs) with
    | some x => some x
    | none => ehiSearch cs

/-- `extractHoldingInfo`: on a match, `parseFloat` the amount and run the
name remainder through `extractCoinName`. -/
def extractHoldingInfo (s : List Char) : Option (ℚ × List Char) :=
  match ehiSearch s with
  | some (q, cap) => some (q, extractCoinName cap)
  | none => none

/-- The fixed alias table of `normalizeCoinName` (`cryptoAPI.js`), in
source order. -/
def coinAliasPairs : List (String × String) :=
  [("btc", "bitcoin"), ("bitcoin", "bitcoin"),
   ("eth", "ethereum"), ("ethereum", "ethereum"),
   ("ada", "cardano"), ("cardano", "cardano"),
   ("dot", "polkadot"), ("polkadot", "polkadot"),
   ("link", "chainlink"), ("chainlink", "chainlink"),
   ("bnb", "binancecoin"), ("binance", "binancecoin"),
   ("sol", "solana"), ("solana", "solana"),
   ("matic", "matic-network"), ("polygon", "matic-network"),
   ("avax", "avalanche-2"), ("avalanche", "avalanche-2"),
   ("luna", "terra-luna"),
   ("doge", "dogecoin"), ("dogecoin", "dogecoin"),
   ("shib", "shiba-inu"), ("shiba", "shiba-inu")]

/-- `normalizeCoinName`: lower-case, look up the alias table, otherwise
pass the lower-cased name through. -/
def normalizeCoinName (name : String) : String :=
  let l := String.mk (name.data.map lcc)
  (coinAliasPairs.lookup l).getD l

/-! ### `parseMessage` -/

/-- The typed intent produced by the parser (one variant per message). -/
inductive Intent where
  | priceQuery (coinName originalCoinName : String)
  | addHolding (amount : ℚ) (coinName originalCoinName : String)
  | portfolioValue
  | trending
  | chartRequest (coinName originalCoinName : String)
  | infoRequest (coinName originalCoinName : String)
  | help
  | general (message : String)
  deriving DecidableEq, Repr

/-- Build the coin-carrying intents from a raw capture. -/
def coinIntent (mk : String → String → Intent) (cap : List Char) : Intent :=
  let coinName := extractCoinName cap
  mk (normalizeCoinName (String.mk coinName)) (String.mk coinName)

/-- Rules 5–10 of the cascade (also reached when `ADD_HOLDING` matched
but `extractHoldingInfo` failed, JS's graceful fall-through). -/
def parseMessageRest (trimmed : List Char) : Intent :=
  if testPV trimmed then .portfolioValue
  else if testTR trimmed then .trending
  else
  match matchCH trimmed with
  | some cap => coinIntent .chartRequest cap
  | none =>
  match matchInfo trimmed with
  | some cap => coinIntent .infoRequest cap
  | none =>
  if testHELP trimmed then .help
  else .general (String.mk trimmed)

/-- `parseMessage`: the ordered pattern cascade of `messageParser.js`. -/
def parseMessageL (message : List Char) : Intent :=
  let trimmed := jsTrim message
  match matchPT trimmed with
  | some cap => coinIntent .priceQuery cap
  | none =>
  match matchPQ trimmed with
  | some cap => coinIntent .priceQuery cap
  | none =>
  match matchPS trimmed with
  | some cap => coinIntent .priceQuery cap
  | none =>
  match matchAH trimmed with
  | some _ =>
    (match extractHoldingInfo trimmed with
     | some (amount, coinName) =>
       .addHolding amount (normalizeCoinName (String.mk coinName)) (String.mk coinName)
     | none => parseMessageRest trimmed)
  | none => parseMessageRest trimmed

/-- `parseMessage` on `String`s. -/
def parseMessage (message : String) : Intent :=
  parseMessageL message.data

/-! ### `apiManager.js`: cache and orchestration-level rate limiter

The `ApiManager` singleton owns a `Map` cache (`key ↦ {data, timestamp}`)
with a 5-minute TTL and a `Map`-based sliding-window rate limiter keyed
by request timestamp (ceiling 50/minute).  JS `Map`s are modelled as
association lists in insertion order: `Map.set` overwrites in place or
appends, `Map.delete` removes the (unique) binding. -/

/-- Cache TTL: `5 * 60 * 1000` milliseconds. -/
def cacheTimeout : ℕ := 5 * 60 * 1000

/-- Orchestration-level ceiling: `maxRequestsPerMinute = 50`. -/
def maxRequestsPerMinute : ℕ := 50

/-- `JSON.stringify` of a flat parameter object.  Parameters are kept as
an insertion-ordered association list; each value field holds the JSON
literal text of the value (e.g. `"bitcoin"` with quotes, `true`, `50`),
so serialization is faithful for every value type the call sites use. -/
def jsonStringify (params : List (String × String)) : String :=
  "\x7b" ++ String.intercalate ","
    (params.map (fun p => "\"" ++ p.1 ++ "\":" ++ p.2)) ++ "\x7d"

/-- `ApiManager.getCacheKey`. -/
def getCacheKey (url : String) (params : List (String × String)) : String :=
  url ++ "_" ++ jsonStringify params

/-- A cached entry `{data, timestamp}`. -/
structure CEntry (α : Type) where
  data : α
  timestamp : ℕ
  deriving DecidableEq, Repr

/-- JS `Map.set`: overwrite the first binding in place, else append. -/
def mapSet (k : String) (v : β) : List (String × β) → List (String × β)
  | [] => [(k, v)]
  | (k', v') :: rest =>
    if k' = k then (k, v) :: rest else (k', v') :: mapSet k v rest

/-- JS `Map.delete`: remove the first binding of the key. -/
def mapDelete (k : String) : List (String × β) → List (String × β)
  | [] => []
  | (k', v') :: rest =>
    if k' = k then rest else (k', v') :: mapDelete k rest

/-- `ApiManager.getFromCache`: return fresh data, else evict the entry
(also deletes on a plain miss, a no-op) and report absence.  Returns the
result together with the possibly-mutated cache. -/
def getFromCache (key : String) (now : ℕ) (cache : List (String × CEntry α)) :
    Option α × List (String × CEntry α) :=
  match cache.lookup key with
  | some e =>
    if now - e.timestamp < cacheTimeout then (some e.data, cache)
    else (none, mapDelete key cache)
  | none => (none, mapDelete key cache)

/-- `ApiManager.setCache`. -/
def setCache (key : String) (d : α) (now : ℕ) (cache : List (String × CEntry α)) :
    List (String × CEntry α) :=
  mapSet key ⟨d, now⟩ cache

/-- `ApiManager.cleanupCache` (the 10-minute background sweep). -/
def cleanupCache (now : ℕ) (cache : List (String × CEntry α)) :
    List (String × CEntry α) :=
  cache.filter (fun p => now - p.2.timestamp < cacheTimeout)

/-- `ApiManager.getCacheStats`. -/
def getCacheStats (now : ℕ) (cache : List (String × CEntry α)) : ℕ × ℕ × ℕ :=
  (cache.length,
   (cache.filter (fun p => now - p.2.timestamp < cacheTimeout)).length,
   (cache.filter (fun p => ¬ (now - p.2.timestamp < cacheTimeout))).length)

/-- `ApiManager.handleRateLimit`: drop timestamps strictly older than the
60-second window, deny when the remaining count reaches the ceiling, else
record the current timestamp (`Map.set now true`, so a timestamp already
present is not duplicated).  Returns (admitted?, new limiter state); on
denial the throw happens after the cleanup mutation. -/
def amAllow (now : ℕ) (st : List ℕ) : Bool × List ℕ :=
  let st' := st.filter (fun t => decide (now - 60000 ≤ t))
  if st'.length ≥ maxRequestsPerMinute then (false, st')
  else (true, if now ∈ st' then st' else st' ++ [now])

/-- Run a sequence of admission attempts through the orchestration
limiter, returning the number of admitted attempts and the final state. -/
def amRun : List ℕ → List ℕ → ℕ × List ℕ
  | [], st => (0, st)
  | t :: ts, st =>
    let (ok, st') := amAllow t st
    let (n, fin) := amRun ts st'
    (if ok then n + 1 else n, fin)

/-! ### `cryptoAPI.js`: the direct client's `RateLimiter`

`canMakeRequest` reassigns `this.requests` to the filtered array and
compares against the ceiling (10/minute); the request interceptor then
either rejects or `recordRequest`s (an array push). -/

/-- Direct-client ceiling: `maxRequests = 10`. -/
def rlMaxRequests : ℕ := 10

/-- The interceptor step of the direct client's `RateLimiter`:
`canMakeRequest` (which filters the recorded timestamps, keeping those
with `now - time < windowMs`) followed by `recordRequest` on success. -/
def rlAllow (now : ℕ) (reqs : List ℕ) : Bool × List ℕ :=
  let r := reqs.filter (fun t => decide (now - t < 60000))
  if r.length < rlMaxRequests then (true, r ++ [now]) else (false, r)

/-- Run a sequence of admission attempts through the direct-client
limiter. -/
def rlRun : List ℕ → List ℕ → ℕ × List ℕ
  | [], st => (0, st)
  | t :: ts, st =>
    let (ok, st') := rlAllow t st
    let (n, fin) := rlRun ts st'
    (if ok then n + 1 else n, fin)

/-! ### `ApiManager.makeRequest` and `searchCoins` -/

/-- The CoinGecko base URL (`API_CONFIG.coinGecko.baseUrl`). -/
def coinGeckoBaseUrl : String := "https://api.coingecko.com/api/v3"

/-- `createApiUrl` (helpers.js): base + endpoint with the parameters
appended as a query string (absent parameters are never passed by the
modelled call sites). -/
def createApiUrl (base endpoint : String) (params : List (String × String)) : String :=
  base ++ endpoint ++
    (if params.isEmpty then ""
     else "?" ++ String.intercalate "&" (params.map (fun p => p.1 ++ "=" ++ p.2)))

/-- The mutable state owned by the `ApiManager` singleton. -/
structure ApiState (α : Type) where
  cache : List (String × CEntry α)
  rate : List ℕ
  deriving Repr

/-- The rate-limit error thrown by `handleRateLimit`. -/
def amRateLimitMsg : String :=
  "Rate limit exceeded. Please wait before making more requests."

/-- `ApiManager.makeRequest`: cache lookup (when `useCache`), then the
axios request whose interceptor runs `handleRateLimit`; a successful
response is cached (when `useCache`).  `net` is the external source;
the returned list logs the URLs actually fetched. -/
def makeRequest (url : String) (params : List (String × String)) (useCache : Bool)
    (now : ℕ) (net : String → Except String α) (st : ApiState α) :
    Except String α × ApiState α × List String :=
  let cacheKey := getCacheKey url params
  let (hit, cache1) :=
    if useCache then getFromCache cacheKey now st.cache else (none, st.cache)
  match hit with
  | some d => (.ok d, ⟨cache1, st.rate⟩, [])
  | none =>
    let (ok, rate1) := amAllow now st.rate
    if ok then
      let fullUrl := createApiUrl coinGeckoBaseUrl url params
      match net fullUrl with
      | .ok d =>
        let cache2 := if useCache then setCache cacheKey d now cache1 else cache1
        (.ok d, ⟨cache2, rate1⟩, [fullUrl])
      | .error e => (.error e, ⟨cache1, rate1⟩, [fullUrl])
    else (.error amRateLimitMsg, ⟨cache1, rate1⟩, [])

/-- The `{ coins: [...] }` payload of the search endpoint. -/
structure SearchResponse where
  coins : List String
  deriving DecidableEq, Repr

/-- `ApiManager.searchCoins`: short or absent queries short-circuit to
`{ coins: [] }`; otherwise an uncached `makeRequest` to `/search`. -/
def searchCoins (query : Option String) (now : ℕ)
    (net : String → Except String SearchResponse) (st : ApiState SearchResponse) :
    Except String SearchResponse × ApiState SearchResponse × List String :=
  match query with
  | none => (.ok ⟨[]⟩, st, [])
  | some q =>
    if q.length < 2 then (.ok ⟨[]⟩, st, [])
    else makeRequest "/search" [("query", "\"" ++ q ++ "\"")] false now net st

/-! ### `cryptoAPI.getCurrentPrice` -/

/-- One record of the `/simple/price` response body. -/
structure PriceRec where
  usd : ℚ
  usd_24h_change : ℚ
  usd_market_cap : ℚ
  deriving DecidableEq, Repr

/-- The value returned by `cryptoAPI.getCurrentPrice`. -/
structure CPrice where
  price : ℚ
  change24h : ℚ
  marketCap : ℚ
  deriving DecidableEq, Repr

/-- `cryptoAPI.getCurrentPrice`, given the source's parsed response body
(a map from coin id to record): absence of the requested id's record
raises the "not found" error, presence returns the record's fields
untouched. -/
def getCurrentPrice (responseData : List (String × PriceRec)) (coinId : String) :
    Except String CPrice :=
  match responseData.lookup coinId with
  | none => .error ("Cryptocurrency \"" ++ coinId ++ "\" not found")
  | some d => .ok ⟨d.usd, d.usd_24h_change, d.usd_market_cap⟩

/-! ### `usePortfolio.js`: the portfolio store

ISO timestamp strings (`new Date().toISOString()`) are modelled by the
clock reading that produced them; `Date.now().toString()` ids keep the
string form. -/

/-- One ledger line of the portfolio. -/
structure Holding where
  id : String
  coinId : String
  coinName : String
  coinSymbol : String
  amount : ℚ
  addedAt : ℕ
  lastUpdated : ℕ
  currentPrice : Option ℚ := none
  currentValue : Option ℚ := none
  change24h : Option ℚ := none
  deriving DecidableEq, Repr

/-- `addHolding`: merge into the first holding with the same `coinId`
(sum the amounts, refresh `lastUpdated`) or append a fresh holding. -/
def addHolding (coinId coinName coinSymbol : String) (amount : ℚ) (now : ℕ) :
    List Holding → List Holding
  | [] =>
    [{ id := toString now, coinId := coinId, coinName := coinName,
       coinSymbol := String.mk (coinSymbol.data.map ucc), amount := amount,
       addedAt := now, lastUpdated := now }]
  | h :: hs =>
    if h.coinId = coinId then
      { h with amount := h.amount + amount, lastUpdated := now } :: hs
    else h :: addHolding coinId coinName coinSymbol amount now hs

/-- `removeHolding`. -/
def removeHolding (holdingId : String) (hs : List Holding) : List Holding :=
  hs.filter (fun h => h.id ≠ holdingId)

/-- `updateHolding`: routes to `removeHolding` when the new amount is not
positive. -/
def updateHolding (holdingId : String) (newAmount : ℚ) (now : ℕ)
    (hs : List Holding) : List Holding :=
  if newAmount ≤ 0 then removeHolding holdingId hs
  else hs.map (fun h =>
    if h.id = holdingId then { h with amount := newAmount, lastUpdated := now } else h)

/-- One record of the `/simple/price` response used by the valuation pass
(`usd_24h_change` may be absent from the source's record). -/
structure MPrice where
  usd : ℚ
  usd_24h_change : Option ℚ
  deriving DecidableEq, Repr

/-- `calculatePortfolioValue`: annotate every holding whose coin appears
in the price map with current price/value/change and accumulate
`totalValue`; holdings without price data pass through unchanged (and
contribute nothing to the total).  Returns (updated holdings, total). -/
def calculatePortfolioValue (prices : List (String × MPrice)) (now : ℕ) :
    List Holding → List Holding × ℚ
  | [] => ([], 0)
  | h :: hs =>
    let (rest, t) := calculatePortfolioValue prices now hs
    match prices.lookup h.coinId with
    | some pd =>
      let cv := h.amount * pd.usd
      ({ h with currentPrice := some pd.usd, currentValue := some cv,
                change24h := pd.usd_24h_change, lastUpdated := now } :: rest,
       cv + t)
    | none => (h :: rest, t)

/-- The object returned by `getPortfolioSummary`; each holding is paired
with its derived percentage share. -/
structure Summary where
  totalCoins : ℕ
  totalValue : ℚ
  change24h : ℚ
  holdings : List (Holding × ℚ)
  deriving DecidableEq, Repr

/-- The numerator loop of `getPortfolioSummary`: sum of
`(change24h / 100) * currentValue` over the holdings with defined
`change24h` and truthy (present, non-zero) `currentValue`, together with
the count of such holdings. -/
def sumValidChanges : List Holding → ℚ × ℕ
  | [] => (0, 0)
  | h :: hs =>
    let (s, n) := sumValidChanges hs
    match h.change24h, h.currentValue with
    | some c, some v =>
      if v ≠ 0 then (c / 100 * v + s, n + 1) else (s, n)
    | _, _ => (s, n)

/-- `getPortfolioSummary`: the aggregate change divides the summed
weighted changes by the stored `portfolioValue`, not by the summed value
of the holdings that entered the numerator. -/
def getPortfolioSummary (holdings : List Holding) (portfolioValue : ℚ) : Summary :=
  let (totalChange24h, validChanges) := sumValidChanges holdings
  { totalCoins := holdings.length,
    totalValue := portfolioValue,
    change24h := if validChanges > 0 then totalChange24h / portfolioValue * 100 else 0,
    holdings := holdings.map (fun h =>
      (h, if portfolioValue > 0
          then ((h.currentValue.getD 0) / portfolioValue) * 100 else 0)) }

/-- The (change, value) pairs of the holdings with change data and a
present, non-zero value — the holdings `getPortfolioSummary` admits into
its numerator. -/
def validCV (holdings : List Holding) : List (ℚ × ℚ) :=
  holdings.filterMap (fun h =>
    match h.change24h, h.currentValue with
    | some c, some v => if v ≠ 0 then some (c, v) else none
    | _, _ => none)

/-- Modelled from the spec (§4.6), for comparison with the code: the
value-weighted average of per-holding 24h changes, where holdings missing
change or value data are excluded from both the numerator and the
denominator. -/
def specWeightedAvgChange (holdings : List Holding) : ℚ :=
  ((validCV holdings).map (fun p => p.1 * p.2)).sum /
    ((validCV holdings).map (fun p => p.2)).sum

/-! ### `generateResponse`

The data client and portfolio store are passed in as interfaces whose
operations may fail arbitrarily (`Except String`), covering every
behaviour of the collaborators including thrown errors; `await` of a
rejected promise is a throw.  `toLocaleString`/`toFixed` presentation
formatting is modelled by a plain decimal rendering (`fmtNum`), which the
claims never inspect. -/

/-- The apostrophe as a one-character string (for the fixed reply
texts). -/
def aposS : String := String.mk [apos]

/-- Stand-in for `Number.prototype.toLocaleString` /
`Number.prototype.toFixed` (presentation-only). -/
def fmtNum (q : ℚ) : String := toString q

/-- `coin.market_data`-shaped details returned by
`cryptoAPI.getCoinDetails`. -/
structure CoinDetails where
  id : String
  name : String
  symbol : String
  description : String
  currentPrice : ℚ
  marketCap : Option ℚ
  change24h : ℚ
  rank : ℕ
  deriving DecidableEq, Repr

/-- One trending coin. -/
structure TrendCoin where
  id : String
  name : String
  symbol : String
  deriving DecidableEq, Repr

/-- One search result. -/
structure SearchCoin where
  id : String
  name : String
  symbol : String
  deriving DecidableEq, Repr

/-- One historical chart point. -/
structure HistPoint where
  timestamp : ℕ
  price : ℚ
  deriving DecidableEq, Repr

/-- The data-client interface consumed by `generateResponse`, with every
operation allowed to fail. -/
structure CryptoAPI where
  getCurrentPrice : String → Except String CPrice
  getCoinDetails : String → Except String CoinDetails
  getHistoricalData : String → ℕ → Except String (List HistPoint)
  getTrendingCoins : Except String (List TrendCoin)
  searchCoins : String → Except String (List SearchCoin)

/-- The portfolio-hook interface consumed by `generateResponse`. -/
structure PortfolioHook where
  addHolding : String → String → String → ℚ → Except String Unit
  getPortfolioSummary : Except String Summary

/-- The reply shape `{text, data?, showChart?, error?}` (the `data`
payload is a presentation attachment and is not modelled). -/
structure Response where
  text : String
  error : Bool := false
  showChart : Bool := false
  deriving DecidableEq, Repr

/-- The fixed `HELP` reply text. -/
def helpText : String :=
  "I can help you with cryptocurrency information! Try asking me:\n          \n• \"What" ++ aposS ++ "s Bitcoin trading at?\" - Get current prices\n• \"I have 2 ETH\" - Add to your portfolio  \n• \"What" ++ aposS ++ "s my portfolio worth?\" - Check portfolio value\n• \"Show me trending coins\" - See what" ++ aposS ++ "s hot\n• \"Show chart for Bitcoin\" - View price charts\n• \"Tell me about Ethereum\" - Get coin information\n\nJust speak naturally - I" ++ aposS ++ "ll understand!"

/-- The fixed fallback (`default`) reply text. -/
def generalText : String :=
  "I" ++ aposS ++ "m not sure how to help with that. Try asking about cryptocurrency prices, your portfolio, or trending coins. Say " ++ aposS ++ "help" ++ aposS ++ " to see what I can do!"

/-- The chart-failure error message, naming the original user input. -/
def chartFailMsg (orig : String) : String :=
  "Could not find chart data for \"" ++ orig ++ "\". Try using the full name or symbol."

/-- The `CHART_REQUEST` branch: primary details+history fetch, then the
search-based fallback (whose own failure is swallowed), then the final
chart error. -/
def chartBranch (api : CryptoAPI) (coinName orig : String) : Except String Response :=
  match (do
      let d ← api.getCoinDetails coinName
      let _ ← api.getHistoricalData coinName 7
      pure d : Except String CoinDetails) with
  | .ok d =>
    .ok { text := "Here" ++ aposS ++ "s the 7-day price chart for " ++ d.name ++ ":",
          showChart := true }
  | .error _ =>
    match api.searchCoins orig with
    | .ok (first :: _) =>
      match api.getHistoricalData first.id 7 with
      | .ok _ =>
        .ok { text := "Here" ++ aposS ++ "s the 7-day price chart for " ++ first.name ++ ":",
              showChart := true }
      | .error _ => .error (chartFailMsg orig)
    | .ok [] => .error (chartFailMsg orig)
    | .error _ => .error (chartFailMsg orig)

/-- The body of `generateResponse`'s `try` block: pure dispatch on the
intent variant. -/
def generateResponseCore (intent : Intent) (api : CryptoAPI) (pf : PortfolioHook) :
    Except String Response :=
  match intent with
  | .priceQuery coinName orig => do
    let priceData ← api.getCurrentPrice coinName
    let changeText := if priceData.change24h > 0 then "up" else "down"
    pure { text := String.mk (orig.data.map ucc) ++ " is currently trading at $" ++
                   fmtNum priceData.price ++ " (" ++ changeText ++ " " ++
                   fmtNum |priceData.change24h| ++ "% in 24h)" }
  | .addHolding amount coinName _ => do
    let d ← api.getCoinDetails coinName
    let _ ← pf.addHolding coinName d.name d.symbol amount
    pure { text := "Added " ++ fmtNum amount ++ " " ++ d.symbol ++
                   " to your portfolio! Current value: $" ++
                   fmtNum (amount * d.currentPrice) }
  | .portfolioValue => do
    let summary ← pf.getPortfolioSummary
    if summary.totalCoins = 0 then
      pure { text := "Your portfolio is empty. Try adding some holdings by saying something like " ++ aposS ++ "I have 2 ETH" ++ aposS }
    else
      let changeText := if summary.change24h > 0 then "up" else "down"
      pure { text := "Your portfolio is worth $" ++ fmtNum summary.totalValue ++
                     " across " ++ toString summary.totalCoins ++
                     " different cryptocurrencies (" ++ changeText ++ " " ++
                     fmtNum |summary.change24h| ++ "% today)" }
  | .trending => do
    let trending ← api.getTrendingCoins
    let lines := (trending.take 5).enum.map (fun p =>
      toString (p.1 + 1) ++ ". " ++ p.2.name ++ " (" ++ p.2.symbol ++ ")")
    pure { text := "Here are today" ++ aposS ++ "s top trending cryptocurrencies:\n\n" ++
                   String.intercalate "\n" lines }
  | .chartRequest coinName orig => chartBranch api coinName orig
  | .infoRequest coinName _ => do
    let info ← api.getCoinDetails coinName
    pure { text := info.name ++ " (" ++ info.symbol ++ ") is currently ranked #" ++
                   toString info.rank ++ " with a market cap of $" ++
                   (match info.marketCap with
                    | some m => fmtNum m
                    | none => "N/A") ++ ". " ++ info.description }
  | .help => pure { text := helpText }
  | .general _ => pure { text := generalText }

/-- The error-flagged reply produced by `generateResponse`'s `catch`. -/
def errorReply (m : String) : Response :=
  { text := "Sorry, I encountered an error: " ++ m ++ ". Please try again.",
    error := true }

/-- `generateResponse`: the single error boundary — any failure of the
dispatch is converted into an error-flagged reply carrying the failure's
message. -/
def generateResponse (intent : Intent) (api : CryptoAPI) (pf : PortfolioHook) :
    Response :=
  match generateResponseCore intent api pf with
  | .ok r => r
  | .error m => errorReply m

/-! ## Claim theorems -/

/-! ### C4: cache-key derivation -/

/-- Left-cancellation of `String.append` through the underlying lists. -/
theorem string_append_cancel_left {a b c : String} (h : a ++ b = a ++ c) : b = c := by
  have hd : a.data ++ b.data = a.data ++ c.data := by
    have := congrArg String.data h
    simpa [String.data_append] using this
  have hbc := List.append_cancel_left hd
  cases b
  cases c
  exact congrArg String.mk hbc

/-- `lookup` finds the key at the head. -/
theorem lookup_cons_self (k : String) (v : β) (l : List (String × β)) :
    ((k, v) :: l).lookup k = some v := by
  simp [List.lookup_cons]

/-- `lookup` skips a head with a different key. -/
theorem lookup_cons_of_ne {a k : String} (h : a ≠ k) (v : β) (l : List (String × β)) :
    ((k, v) :: l).lookup a = l.lookup a := by
  have hb : (a == k) = false := by simpa using h
  simp [List.lookup_cons, hb]

/-- Example parameter list in one insertion order. -/
def cexParams1 : List (String × String) :=
  [("ids", "\"bitcoin\""), ("vs_currencies", "\"usd\"")]

/-- The same mapping with the keys inserted in the other order. -/
def cexParams2 : List (String × String) :=
  [("vs_currencies", "\"usd\""), ("ids", "\"bitcoin\"")]

/-- C4 counterexample: two parameter mappings that are equal as mappings
(identical key–value lookups) but, having different insertion orders,
derive different cache keys, so the identical logical requests do not
collide on one cache entry. -/
theorem cacheKey_order_counterexample :
    (∀ k : String, cexParams1.lookup k = cexParams2.lookup k) ∧
    getCacheKey "/simple/price" cexParams1 ≠ getCacheKey "/simple/price" cexParams2 := by
  constructor
  · intro k
    by_cases h1 : k = "ids"
    · subst h1; decide
    · by_cases h2 : k = "vs_currencies"
      · subst h2; decide
      · rw [cexParams1, cexParams2,
          lookup_cons_of_ne h1, lookup_cons_of_ne h2,
          lookup_cons_of_ne h2, lookup_cons_of_ne h1]
  · decide

/-- C4 (amended): the cache key is a deterministic, pure function of the
endpoint and the insertion-ordered parameter sequence — two requests to
the same endpoint collide exactly when their parameter lists serialize
identically (in particular, identical lists always collide); mappings
that are equal but were built in different key orders generally serialize
differently and therefore occupy distinct cache entries. -/
theorem cacheKey_serialization_amended (url : String)
    (p q : List (String × String)) :
    getCacheKey url p = getCacheKey url q ↔ jsonStringify p = jsonStringify q := by
  constructor
  · intro h
    exact string_append_cancel_left (a := url ++ "_") (by
      simpa [getCacheKey, String.append_assoc] using h)
  · intro h
    simp [getCacheKey, h]

/-! ### C5: cache put/get and TTL -/

/-- `Map.set` makes the key's binding visible to `lookup`. -/
theorem lookup_mapSet_self (k : String) (v : β) :
    ∀ l : List (String × β), (mapSet k v l).lookup k = some v := by
  intro l
  induction l with
  | nil => simp [mapSet, lookup_cons_self]
  | cons p rest ih =>
    obtain ⟨k', v'⟩ := p
    by_cases h : k' = k
    · simp [mapSet, h, lookup_cons_self]
    · rw [mapSet]
      simp only [h, if_false]
      rw [lookup_cons_of_ne (fun hk => h hk.symm)]
      exact ih

/-- A key absent from the key sequence has no binding. -/
theorem lookup_eq_none_of_not_mem (k : String) :
    ∀ l : List (String × β), k ∉ l.map Prod.fst → l.lookup k = none := by
  intro l
  induction l with
  | nil => simp
  | cons p rest ih =>
    intro h
    obtain ⟨k', v'⟩ := p
    simp only [List.map_cons, List.mem_cons] at h
    push_neg at h
    rw [lookup_cons_of_ne h.1]
    exact ih h.2

/-- `Map.delete` removes the key's binding entirely (JS `Map` keys are
unique, expressed by `Nodup` of the key sequence). -/
theorem lookup_mapDelete_self (k : String) :
    ∀ l : List (String × β), (l.map Prod.fst).Nodup →
      (mapDelete k l).lookup k = none := by
  intro l
  induction l with
  | nil => intro _; simp [mapDelete]
  | cons p rest ih =>
    intro hnd
    obtain ⟨k', v'⟩ := p
    simp only [List.map_cons, List.nodup_cons] at hnd
    by_cases h : k' = k
    · subst h
      simpa [mapDelete] using lookup_eq_none_of_not_mem _ _ hnd.1
    · rw [mapDelete]
      simp only [h, if_false]
      rw [lookup_cons_of_ne (fun hk => h hk.symm)]
      exact ih hnd.2

/-- The key sequence of `Map.set`. -/
theorem keys_mapSet (k : String) (v : β) :
    ∀ l : List (String × β),
      (mapSet k v l).map Prod.fst =
        if k ∈ l.map Prod.fst then l.map Prod.fst else l.map Prod.fst ++ [k] := by
  intro l
  induction l with
  | nil => simp [mapSet]
  | cons p rest ih =>
    obtain ⟨k', v'⟩ := p
    by_cases h : k' = k
    · simp [mapSet, h]
    · simp only [mapSet, h, if_false, List.map_cons, List.mem_cons]
      rw [ih]
      have hne : ¬ k = k' := fun hk => h hk.symm
      by_cases hm : k ∈ rest.map Prod.fst
      · simp [hm, hne]
      · simp [hm, hne]

/-- `Map.set` preserves uniqueness of the keys. -/
theorem nodup_keys_mapSet (k : String) (v : β)
    (l : List (String × β)) (hnd : (l.map Prod.fst).Nodup) :
    ((mapSet k v l).map Prod.fst).Nodup := by
  rw [keys_mapSet]
  by_cases hm : k ∈ l.map Prod.fst
  · simpa [hm] using hnd
  · simpa [hm, List.nodup_append] using hnd

/-- C5: a `get` performed while the entry is younger than the 5-minute
TTL (in particular immediately after the `put`) returns the stored value
unchanged, and a `get` performed at or after the TTL has elapsed reports
absence and evicts the entry from the cache. -/
theorem cache_put_get_ttl {α : Type} (k : String) (v : α)
    (cache : List (String × CEntry α)) (t₀ t : ℕ)
    (hnd : (cache.map Prod.fst).Nodup) :
    (t - t₀ < cacheTimeout →
      (getFromCache k t (setCache k v t₀ cache)).1 = some v) ∧
    (t₀ + cacheTimeout ≤ t →
      (getFromCache k t (setCache k v t₀ cache)).1 = none ∧
      ((getFromCache k t (setCache k v t₀ cache)).2).lookup k = none) := by
  have hlook : (setCache k v t₀ cache).lookup k = some (⟨v, t₀⟩ : CEntry α) :=
    lookup_mapSet_self k _ cache
  constructor
  · intro hfresh
    simp [getFromCache, hlook, hfresh]
  · intro hold
    have hstale : ¬ (t - t₀ < cacheTimeout) := by omega
    have hnd' : ((setCache k v t₀ cache).map Prod.fst).Nodup :=
      nodup_keys_mapSet k _ cache hnd
    refine ⟨by simp [getFromCache, hlook, hstale], ?_⟩
    simp only [getFromCache, hlook, hstale, if_false]
    exact lookup_mapDelete_self k _ hnd'

/-- C5 witness: a concrete put at time 0 read back at time 0 and at
exactly the TTL boundary. -/
theorem cache_put_get_ttl_witness :
    ((0 : ℕ) - 0 < cacheTimeout →
      (getFromCache "k" 0 (setCache "k" (7 : ℕ) 0 [])).1 = some 7) ∧
    ((0 : ℕ) + cacheTimeout ≤ 300000 →
      (getFromCache "k" 300000 (setCache "k" (7 : ℕ) 0 [])).1 = none ∧
      ((getFromCache "k" 300000 (setCache "k" (7 : ℕ) 0 [])).2).lookup "k" = none) := by
  have h := cache_put_get_ttl (α := ℕ) "k" 7 [] 0 300000 (by simp)
  have h0 := cache_put_get_ttl (α := ℕ) "k" 7 [] 0 0 (by simp)
  exact ⟨fun hf => h0.1 hf, fun ho => h.2 ho⟩

/-! ### C9: `getCurrentPrice` not-found behaviour -/

/-- C9: `getCurrentPrice` fails exactly when the source's response body
contains no record for the requested id; the error message names that id
and says "not found"; when the record exists, its price, 24h change and
market cap are returned verbatim (no rounding). -/
theorem getCurrentPrice_not_found (resp : List (String × PriceRec)) (coinId : String) :
    ((∃ m, getCurrentPrice resp coinId = .error m) ↔ resp.lookup coinId = none) ∧
    (resp.lookup coinId = none →
      ∃ m, getCurrentPrice resp coinId = .error m ∧
        coinId.data <:+: m.data ∧ "not found".data <:+: m.data) ∧
    (∀ d, resp.lookup coinId = some d →
      getCurrentPrice resp coinId = .ok ⟨d.usd, d.usd_24h_change, d.usd_market_cap⟩) := by
  refine ⟨⟨?_, ?_⟩, ?_, ?_⟩
  · rintro ⟨m, hm⟩
    cases h : resp.lookup coinId with
    | none => rfl
    | some d => simp [getCurrentPrice, h] at hm
  · intro h
    exact ⟨"Cryptocurrency \"" ++ coinId ++ "\" not found", by simp [getCurrentPrice, h]⟩
  · intro h
    refine ⟨"Cryptocurrency \"" ++ coinId ++ "\" not found",
      by simp [getCurrentPrice, h], ?_, ?_⟩
    · refine ⟨"Cryptocurrency \"".data, "\" not found".data, ?_⟩
      simp [String.data_append]
    · refine ⟨"Cryptocurrency \"".data ++ coinId.data ++ ['\"', ' '], [], ?_⟩
      simp [String.data_append]
  · intro d h
    simp [getCurrentPrice, h]

/-- C9 witness: a response carrying a bitcoin record but no dogecoin
record. -/
theorem getCurrentPrice_not_found_witness :
    ((∃ m, getCurrentPrice [("bitcoin", ⟨50000, 3, 1000000⟩)] "dogecoin" = .error m) ↔
      ([("bitcoin", (⟨50000, 3, 1000000⟩ : PriceRec))].lookup "dogecoin" = none)) ∧
    getCurrentPrice [("bitcoin", ⟨50000, 3, 1000000⟩)] "bitcoin" =
      .ok ⟨50000, 3, 1000000⟩ := by
  refine ⟨(getCurrentPrice_not_found _ "dogecoin").1, ?_⟩
  exact (getCurrentPrice_not_found [("bitcoin", ⟨50000, 3, 1000000⟩)] "bitcoin").2.2
    ⟨50000, 3, 1000000⟩ (lookup_cons_self _ _ _)

/-! ### C10: short search queries short-circuit -/

/-- C10: an absent, empty or single-character query makes the
orchestration-level `searchCoins` return `{ coins: [] }` immediately:
the cache and rate-limiter state are untouched and no URL is fetched. -/
theorem searchCoins_short_query (q : Option String) (now : ℕ)
    (net : String → Except String SearchResponse) (st : ApiState SearchResponse)
    (h : q = none ∨ ∃ s, q = some s ∧ s.length < 2) :
    searchCoins q now net st = (.ok ⟨[]⟩, st, []) := by
  rcases h with h | ⟨s, rfl, hs⟩
  · subst h; rfl
  · simp [searchCoins, hs]

/-- C10 witness: the empty, one-character and absent queries. -/
theorem searchCoins_short_query_witness :
    searchCoins (some "b") 0 (fun _ => .error "net") ⟨[], []⟩ = (.ok ⟨[]⟩, ⟨[], []⟩, []) ∧
    searchCoins (some "") 0 (fun _ => .error "net") ⟨[], []⟩ = (.ok ⟨[]⟩, ⟨[], []⟩, []) ∧
    searchCoins none 0 (fun _ => .error "net") ⟨[], []⟩ = (.ok ⟨[]⟩, ⟨[], []⟩, []) := by
  refine ⟨?_, ?_, ?_⟩
  · exact searchCoins_short_query _ 0 _ _ (Or.inr ⟨"b", rfl, by decide⟩)
  · exact searchCoins_short_query _ 0 _ _ (Or.inr ⟨"", rfl, by decide⟩)
  · exact searchCoins_short_query _ 0 _ _ (Or.inl rfl)

/-! ### C7: `addHolding` merges instead of duplicating -/

/-- `addHolding` leaves exactly one holding for the added coin: it merges
when one exists and appends exactly one otherwise. -/
theorem addHolding_countP (coinId coinName coinSymbol : String) (amount : ℚ) (now : ℕ) :
    ∀ hs : List Holding,
      (addHolding coinId coinName coinSymbol amount now hs).countP
          (fun h => h.coinId == coinId) =
        max (hs.countP (fun h => h.coinId == coinId)) 1 := by
  intro hs
  induction hs with
  | nil => simp [addHolding, List.countP_cons]
  | cons h rest ih =>
    by_cases hcid : h.coinId = coinId
    · simp [addHolding, hcid, List.countP_cons]
    · simp only [addHolding, hcid, if_false]
      rw [List.countP_cons, List.countP_cons, ih]
      simp [hcid]

/-- The fresh holding appended by `addHolding` for an unheld coin. -/
def freshHolding (coinId coinName coinSymbol : String) (amount : ℚ) (now : ℕ) : Holding :=
  { id := toString now, coinId := coinId, coinName := coinName,
    coinSymbol := String.mk (coinSymbol.data.map ucc), amount := amount,
    addedAt := now, lastUpdated := now }

/-- From a zero match count, extract the head and tail facts. -/
theorem countP_zero_cons {p : Holding → Bool} {h : Holding} {rest : List Holding}
    (h0 : (h :: rest).countP p = 0) : p h = false ∧ rest.countP p = 0 := by
  rw [List.countP_cons] at h0
  constructor
  · by_cases hp : p h
    · simp [hp] at h0
    · simpa using hp
  · omega

/-- Adding a coin that is not yet held appends one fresh holding. -/
theorem addHolding_not_held (coinId coinName coinSymbol : String) (amount : ℚ) (now : ℕ) :
    ∀ hs : List Holding, hs.countP (fun h => h.coinId == coinId) = 0 →
      addHolding coinId coinName coinSymbol amount now hs =
        hs ++ [freshHolding coinId coinName coinSymbol amount now] := by
  intro hs
  induction hs with
  | nil => intro _; rfl
  | cons h rest ih =>
    intro h0
    obtain ⟨hph, hprest⟩ := countP_zero_cons h0
    have hne : ¬ h.coinId = coinId := by simpa using hph
    simp only [addHolding, hne, if_false, List.cons_append, List.cons.injEq, true_and]
    exact ih hprest

/-- Adding a coin whose sole holding sits at the end of the list merges
into it. -/
theorem addHolding_append_hit (coinId coinName coinSymbol : String) (amount : ℚ)
    (now : ℕ) (h₀ : Holding) (hc : h₀.coinId = coinId) :
    ∀ hs : List Holding, hs.countP (fun h => h.coinId == coinId) = 0 →
      addHolding coinId coinName coinSymbol amount now (hs ++ [h₀]) =
        hs ++ [{ h₀ with amount := h₀.amount + amount, lastUpdated := now }] := by
  intro hs
  induction hs with
  | nil => intro _; simp [addHolding, hc]
  | cons h rest ih =>
    intro h0
    obtain ⟨hph, hprest⟩ := countP_zero_cons h0
    have hne : ¬ h.coinId = coinId := by simpa using hph
    simp only [List.cons_append, addHolding, hne, if_false, List.cons.injEq, true_and]
    exact ih hprest

/-- C7: adding the same coin twice from a state that does not hold it
leaves exactly one holding for that coin, carrying the summed amount
`a + b` and the second call's `lastUpdated`; and in general `addHolding`
never creates a duplicate holding for a coin (the match count after an
add is `max count 1`). -/
theorem addHolding_merges (hs : List Holding) (c nm sym : String) (a b : ℚ)
    (n₁ n₂ : ℕ) (h0 : hs.countP (fun h => h.coinId == c) = 0) :
    ((addHolding c nm sym b n₂ (addHolding c nm sym a n₁ hs)).filter
        (fun h => h.coinId == c) =
      [{ id := toString n₁, coinId := c, coinName := nm,
         coinSymbol := String.mk (sym.data.map ucc), amount := a + b,
         addedAt := n₁, lastUpdated := n₂ }]) ∧
    ((addHolding c nm sym b n₂ (addHolding c nm sym a n₁ hs)).countP
        (fun h => h.coinId == c) = 1) ∧
    (∀ (hs' : List Holding) (amt : ℚ) (n : ℕ),
      (addHolding c nm sym amt n hs').countP (fun h => h.coinId == c) =
        max (hs'.countP (fun h => h.coinId == c)) 1) := by
  have h1 := addHolding_not_held c nm sym a n₁ hs h0
  have h2 := addHolding_append_hit c nm sym b n₂
    (freshHolding c nm sym a n₁) rfl hs h0
  have hall : ∀ h ∈ hs, ¬ ((fun h => h.coinId == c) h = true) := by
    intro h hmem
    exact List.countP_eq_zero.mp h0 h hmem
  have hfil : hs.filter (fun h => h.coinId == c) = [] :=
    List.filter_eq_nil_iff.mpr hall
  rw [h1, h2]
  refine ⟨?_, ?_, fun hs' amt n => addHolding_countP c nm sym amt n hs'⟩
  · rw [List.filter_append, hfil]
    simp [freshHolding]
  · rw [List.countP_append, h0]
    simp [freshHolding]

/-- C7 witness: two concrete adds of bitcoin (amounts 2 then 3) starting
from the empty portfolio. -/
theorem addHolding_merges_witness :
    (addHolding "bitcoin" "Bitcoin" "btc" 3 20
        (addHolding "bitcoin" "Bitcoin" "btc" 2 10 [])).filter
      (fun h => h.coinId == "bitcoin") =
      [{ id := "10", coinId := "bitcoin", coinName := "Bitcoin", coinSymbol := "BTC",
         amount := 5, addedAt := 10, lastUpdated := 20 }] := by
  have h := (addHolding_merges [] "bitcoin" "Bitcoin" "btc" 2 3 10 20 (by rfl)).1
  rw [h]
  norm_num
  constructor
  · rfl
  · decide

/-! ### C3: the aggregate 24h portfolio change -/

/-- The summary's numerator loop computes the weighted-change sum and the
count over exactly the `validCV` pairs. -/
theorem sumValidChanges_eq : ∀ hs : List Holding,
    sumValidChanges hs =
      (((validCV hs).map (fun p => p.1 / 100 * p.2)).sum, (validCV hs).length) := by
  intro hs
  induction hs with
  | nil => rfl
  | cons h rest ih =>
    cases hc : h.change24h with
    | none =>
      cases hv : h.currentValue with
      | none => simpa [sumValidChanges, validCV, hc, hv, List.filterMap_cons] using ih
      | some v => simpa [sumValidChanges, validCV, hc, hv, List.filterMap_cons] using ih
    | some c =>
      cases hv : h.currentValue with
      | none => simpa [sumValidChanges, validCV, hc, hv, List.filterMap_cons] using ih
      | some v =>
        by_cases hvz : v = 0
        · simpa [sumValidChanges, validCV, hc, hv, hvz, List.filterMap_cons] using ih
        · simp [sumValidChanges, validCV, hc, hv, hvz, List.filterMap_cons, ih]

/-- Dividing each weighted term by 100 is dividing the sum by 100. -/
theorem sum_div_hundred : ∀ l : List (ℚ × ℚ),
    (l.map (fun p => p.1 / 100 * p.2)).sum = (l.map (fun p => p.1 * p.2)).sum / 100 := by
  intro l
  induction l with
  | nil => simp
  | cons p rest ih =>
    simp only [List.map_cons, List.sum_cons, ih]
    ring

/-- C3 (amended): the summary's aggregate change is
`100 · (Σ_valid change/100 · value) / totalValue` with `totalValue` the
stored portfolio value of the *whole* portfolio; it agrees with the
spec's weighted average (which excludes value-less or change-less
holdings from numerator and denominator alike) exactly under the proviso
that the stored total equals the summed value of the admitted holdings —
when a holding contributes value but no change data, the two differ. -/
theorem portfolioSummary_weighted_change_amended (hs : List Holding) (pv : ℚ)
    (hpv : pv = ((validCV hs).map (fun p => p.2)).sum) :
    (getPortfolioSummary hs pv).change24h = specWeightedAvgChange hs := by
  have hsum := sumValidChanges_eq hs
  simp only [getPortfolioSummary, hsum, specWeightedAvgChange]
  by_cases hn : (validCV hs).length > 0
  · simp only [hn, if_true, sum_div_hundred]
    by_cases hz : pv = 0
    · subst hz
      rw [← hpv]
      simp
    · rw [div_div, div_mul_eq_mul_div, mul_comm (100 : ℚ) pv,
        mul_div_mul_right _ _ (by norm_num : (100 : ℚ) ≠ 0), hpv]
  · have hnil : validCV hs = [] := by
      cases hvc : validCV hs with
      | nil => rfl
      | cons a l => rw [hvc] at hn; simp at hn
    simp [hn, hnil, hpv]

/-- A one-bitcoin holding (pre-valuation). -/
def cexHoldA : Holding :=
  { id := "1", coinId := "bitcoin", coinName := "Bitcoin", coinSymbol := "BTC",
    amount := 1, addedAt := 0, lastUpdated := 0 }

/-- A one-ethereum holding (pre-valuation). -/
def cexHoldB : Holding :=
  { id := "2", coinId := "ethereum", coinName := "Ethereum", coinSymbol := "ETH",
    amount := 1, addedAt := 0, lastUpdated := 0 }

/-- A price response in which ethereum's record carries no
`usd_24h_change`. -/
def cexPrices : List (String × MPrice) :=
  [("bitcoin", ⟨100, some 10⟩), ("ethereum", ⟨100, none⟩)]

/-- The bitcoin holding after the counterexample valuation pass. -/
def cexHoldA1 : Holding :=
  { cexHoldA with currentPrice := some 100, currentValue := some 100,
                  change24h := some 10, lastUpdated := 1 }

/-- The ethereum holding after the counterexample valuation pass (price
present, change absent). -/
def cexHoldB1 : Holding :=
  { cexHoldB with currentPrice := some 100, currentValue := some 100,
                  change24h := none, lastUpdated := 1 }

/-- C3 counterexample: after a valuation pass in which ethereum has a
price but no 24h-change field, the summary's aggregate change is 5
(weighted sum divided by the full total 200) while the value-weighted
average over the holdings with change data is 10 — the code does not
exclude change-less holdings from the denominator. -/
theorem portfolioSummary_change_counterexample :
    (calculatePortfolioValue cexPrices 1 [cexHoldA, cexHoldB]).2 = 200 ∧
    (getPortfolioSummary (calculatePortfolioValue cexPrices 1 [cexHoldA, cexHoldB]).1
        (calculatePortfolioValue cexPrices 1 [cexHoldA, cexHoldB]).2).change24h = 5 ∧
    specWeightedAvgChange (calculatePortfolioValue cexPrices 1 [cexHoldA, cexHoldB]).1 = 10 ∧
    (5 : ℚ) ≠ 10 := by
  have hcalc : calculatePortfolioValue cexPrices 1 [cexHoldA, cexHoldB] =
      ([cexHoldA1, cexHoldB1], 200) := by
    simp [calculatePortfolioValue, cexPrices, cexHoldA, cexHoldB, cexHoldA1, cexHoldB1,
      List.lookup]
    norm_num
  rw [hcalc]
  refine ⟨rfl, ?_, ?_, by norm_num⟩
  · simp [getPortfolioSummary, sumValidChanges, cexHoldA1, cexHoldB1, cexHoldA, cexHoldB]
    norm_num
  · simp [specWeightedAvgChange, validCV, List.filterMap, cexHoldA1, cexHoldB1,
      cexHoldA, cexHoldB]

/-- C3 witness: a valuation pass in which every holding has both price
and change data makes the stored total equal the admitted holdings'
summed value, so the amended theorem applies and the summary equals the
spec's weighted average. -/
theorem portfolioSummary_weighted_change_witness :
    (getPortfolioSummary [cexHoldA1] 100).change24h =
      specWeightedAvgChange [cexHoldA1] := by
  apply portfolioSummary_weighted_change_amended
  simp [validCV, List.filterMap, cexHoldA1, cexHoldA]

/-! ### C1: the two sliding-window rate limiters -/

/-- Unfolding one step of `amRun`. -/
theorem amRun_cons (t : ℕ) (ts st : List ℕ) :
    amRun (t :: ts) st =
      (if (amAllow t st).1 then (amRun ts (amAllow t st).2).1 + 1
       else (amRun ts (amAllow t st).2).1,
       (amRun ts (amAllow t st).2).2) := by
  rcases h : amAllow t st with ⟨ok, st'⟩
  simp [amRun, h]

/-- Unfolding one step of `rlRun`. -/
theorem rlRun_cons (t : ℕ) (ts st : List ℕ) :
    rlRun (t :: ts) st =
      (if (rlAllow t st).1 then (rlRun ts (rlAllow t st).2).1 + 1
       else (rlRun ts (rlAllow t st).2).1,
       (rlRun ts (rlAllow t st).2).2) := by
  rcases h : rlAllow t st with ⟨ok, st'⟩
  simp [rlRun, h]

/-- Orchestration limiter: a run of attempts at pairwise-distinct
timestamps inside one 60-second window, starting from a state whose
recorded timestamps also lie in the window and are distinct from the
attempts, admits exactly `min (number of attempts) (50 - recorded)`. -/
theorem amRun_count : ∀ (ts st : List ℕ) (lo : ℕ),
    (st ++ ts).Nodup → (∀ x ∈ st ++ ts, lo ≤ x ∧ x ≤ lo + 60000) →
    (amRun ts st).1 = min ts.length (maxRequestsPerMinute - st.length) := by
  intro ts
  induction ts with
  | nil => intro st lo _ _; simp [amRun]
  | cons t ts' ih =>
    intro st lo hnd hw
    have htw : lo ≤ t ∧ t ≤ lo + 60000 := hw t (List.mem_append.mpr (Or.inr (by simp)))
    have hfilter : st.filter (fun x => decide (t - 60000 ≤ x)) = st := by
      refine List.filter_eq_self.mpr (fun x hx => ?_)
      have hxw := hw x (List.mem_append.mpr (Or.inl hx))
      simp only [decide_eq_true_eq]
      omega
    have hnd' : (st ++ ts').Nodup := by
      refine hnd.sublist ?_
      exact (List.sublist_cons_self t ts').append_left st
    have hw' : ∀ x ∈ st ++ ts', lo ≤ x ∧ x ≤ lo + 60000 := by
      intro x hx
      refine hw x ?_
      rcases List.mem_append.mp hx with h | h
      · exact List.mem_append.mpr (Or.inl h)
      · exact List.mem_append.mpr (Or.inr (by simp [h]))
    by_cases hlen : st.length ≥ maxRequestsPerMinute
    · have hallow : amAllow t st = (false, st) := by
        unfold amAllow
        rw [hfilter, if_pos hlen]
      rw [amRun_cons, hallow]
      simp only [ih st lo hnd' hw']
      simp only [List.length_cons]
      have h50 : maxRequestsPerMinute - st.length = 0 := by
        simp only [maxRequestsPerMinute] at hlen ⊢
        omega
      simp [h50]
    · have ht : t ∉ st := by
        intro hmem
        exact List.disjoint_of_nodup_append hnd hmem (by simp)
      have hallow : amAllow t st = (true, st ++ [t]) := by
        unfold amAllow
        rw [hfilter, if_neg hlen, if_neg ht]
      have hnda : ((st ++ [t]) ++ ts').Nodup := by
        rw [List.append_assoc]
        simpa using hnd
      have hwa : ∀ x ∈ (st ++ [t]) ++ ts', lo ≤ x ∧ x ≤ lo + 60000 := by
        intro x hx
        rw [List.append_assoc] at hx
        exact hw x (by simpa using hx)
      rw [amRun_cons, hallow]
      simp only [ih (st ++ [t]) lo hnda hwa]
      simp only [List.length_cons, List.length_append, List.length_singleton, List.length_nil]
      simp only [Prod.fst, if_true]
      simp only [maxRequestsPerMinute] at hlen ⊢
      omega

/-- Direct-client limiter: a run of attempts strictly inside one
60-second window admits exactly `min (number of attempts)
(10 - recorded)`, with no distinctness requirement. -/
theorem rlRun_count : ∀ (ts st : List ℕ) (lo : ℕ),
    (∀ x ∈ st ++ ts, lo ≤ x ∧ x < lo + 60000) →
    (rlRun ts st).1 = min ts.length (rlMaxRequests - st.length) := by
  intro ts
  induction ts with
  | nil => intro st lo _; simp [rlRun]
  | cons t ts' ih =>
    intro st lo hw
    have htw : lo ≤ t ∧ t < lo + 60000 := hw t (List.mem_append.mpr (Or.inr (by simp)))
    have hfilter : st.filter (fun x => decide (t - x < 60000)) = st := by
      refine List.filter_eq_self.mpr (fun x hx => ?_)
      have hxw := hw x (List.mem_append.mpr (Or.inl hx))
      simp only [decide_eq_true_eq]
      omega
    have hwd : ∀ x ∈ st ++ ts', lo ≤ x ∧ x < lo + 60000 := by
      intro x hx
      refine hw x ?_
      rcases List.mem_append.mp hx with h | h
      · exact List.mem_append.mpr (Or.inl h)
      · exact List.mem_append.mpr (Or.inr (by simp [h]))
    have hwa : ∀ x ∈ (st ++ [t]) ++ ts', lo ≤ x ∧ x < lo + 60000 := by
      intro x hx
      rw [List.append_assoc] at hx
      exact hw x (by simpa using hx)
    by_cases hlen : st.length < rlMaxRequests
    · have hallow : rlAllow t st = (true, st ++ [t]) := by
        unfold rlAllow
        rw [hfilter, if_pos hlen]
      rw [rlRun_cons, hallow]
      simp only [ih (st ++ [t]) lo hwa]
      simp only [List.length_cons, List.length_append, List.length_singleton, List.length_nil]
      simp only [Prod.fst, if_true]
      simp only [rlMaxRequests] at hlen ⊢
      omega
    · have hallow : rlAllow t st = (false, st) := by
        unfold rlAllow
        rw [hfilter, if_neg hlen]
      rw [rlRun_cons, hallow]
      simp only [ih st lo hwd]
      simp only [List.length_cons]
      have h10 : rlMaxRequests - st.length = 0 := by
        simp only [rlMaxRequests] at hlen ⊢
        omega
      simp [h10]

/-- Orchestration limiter reset: once every recorded timestamp is
strictly older than the window, an attempt is admitted and the state
shrinks to just the new timestamp. -/
theorem amAllow_reset (now : ℕ) (st : List ℕ) (h : ∀ x ∈ st, x + 60000 < now) :
    amAllow now st = (true, [now]) := by
  have hfil : st.filter (fun x => decide (now - 60000 ≤ x)) = [] := by
    refine List.filter_eq_nil_iff.mpr (fun x hx => ?_)
    have := h x hx
    simp only [decide_eq_true_eq]
    omega
  unfold amAllow
  rw [hfil]
  simp [maxRequestsPerMinute]

/-- Direct-client limiter reset. -/
theorem rlAllow_reset (now : ℕ) (st : List ℕ) (h : ∀ x ∈ st, x + 60000 ≤ now) :
    rlAllow now st = (true, [now]) := by
  have hfil : st.filter (fun x => decide (now - x < 60000)) = [] := by
    refine List.filter_eq_nil_iff.mpr (fun x hx => ?_)
    have := h x hx
    simp only [decide_eq_true_eq]
    omega
  unfold rlAllow
  rw [hfil]
  simp [rlMaxRequests]

/-- A denied admission aborts `makeRequest` before the network call. -/
theorem makeRequest_denied {α : Type} (url : String) (params : List (String × String))
    (now : ℕ) (net : String → Except String α) (st : ApiState α)
    (h : (amAllow now st.rate).1 = false) :
    makeRequest url params false now net st =
      (.error amRateLimitMsg, ⟨st.cache, (amAllow now st.rate).2⟩, []) := by
  rcases heq : amAllow now st.rate with ⟨ok, r⟩
  rw [heq] at h
  simp only at h
  subst h
  simp [makeRequest, heq]

/-- C1 counterexample: 51 attempts within the same millisecond are all
admitted by the orchestration limiter (its window is a `Map` keyed by
timestamp, so they collapse into one recorded entry), exceeding the
claimed ceiling of exactly 50 admissions per 60-second window. -/
theorem rateLimiter_same_ms_counterexample :
    amRun (List.replicate 51 0) [] = (51, [0]) ∧ 50 < 51 := by
  constructor
  · rfl
  · decide

/-- C1 (amended): both sliding-window limiters deny an attempt whose
trailing window already holds `ceiling` recorded requests — and the
denial aborts `makeRequest` with a rate-limit error before any URL is
fetched — and admissions resume once the window has fully elapsed; a run
of attempts inside one 60-second window is admitted exactly `ceiling`
times, with the proviso that the orchestration limiter records the
attempts' *set* of timestamps (a `Map` keyed by timestamp), so its
exact-`ceiling` guarantee holds for attempts at pairwise-distinct
timestamps, repeated same-millisecond attempts all being admitted while
consuming a single slot; the direct client's ceiling of 10 needs no such
proviso. -/
theorem rateLimiter_window_amended :
    (∀ (now : ℕ) (st : List ℕ),
      (st.filter (fun x => decide (now - 60000 ≤ x))).length ≥ maxRequestsPerMinute →
      (amAllow now st).1 = false) ∧
    (∀ (α : Type) (url : String) (params : List (String × String)) (now : ℕ)
      (net : String → Except String α) (st : ApiState α),
      (amAllow now st.rate).1 = false →
      makeRequest url params false now net st =
        (.error amRateLimitMsg, ⟨st.cache, (amAllow now st.rate).2⟩, [])) ∧
    (∀ (ts : List ℕ) (lo : ℕ), ts.Nodup → (∀ x ∈ ts, lo ≤ x ∧ x ≤ lo + 60000) →
      (amRun ts []).1 = min ts.length maxRequestsPerMinute) ∧
    (∀ (now : ℕ) (st : List ℕ), (∀ x ∈ st, x + 60000 < now) →
      amAllow now st = (true, [now])) ∧
    (∀ (now : ℕ) (st : List ℕ),
      (st.filter (fun x => decide (now - x < 60000))).length ≥ rlMaxRequests →
      (rlAllow now st).1 = false) ∧
    (∀ (ts : List ℕ) (lo : ℕ), (∀ x ∈ ts, lo ≤ x ∧ x < lo + 60000) →
      (rlRun ts []).1 = min ts.length rlMaxRequests) ∧
    (∀ (now : ℕ) (st : List ℕ), (∀ x ∈ st, x + 60000 ≤ now) →
      rlAllow now st = (true, [now])) := by
  refine ⟨?_, ?_, ?_, amAllow_reset, ?_, ?_, rlAllow_reset⟩
  · intro now st h
    unfold amAllow
    simp only [ge_iff_le] at h ⊢
    rw [if_pos h]
  · intro α url params now net st h
    exact makeRequest_denied url params now net st h
  · intro ts lo hnd hw
    have := amRun_count ts [] lo (by simpa using hnd) (by simpa using hw)
    simpa using this
  · intro now st h
    unfold rlAllow
    simp only [ge_iff_le] at h
    rw [if_neg (by omega)]
  · intro ts lo hw
    have := rlRun_count ts [] lo (by simpa using hw)
    simpa using this

/-- C1 witness: concrete runs and resets for both limiters. -/
theorem rateLimiter_window_witness :
    (amRun [5, 7, 9] []).1 = min 3 maxRequestsPerMinute ∧
    amAllow 70001 [5] = (true, [70001]) ∧
    (rlRun [5, 5, 9] []).1 = min 3 rlMaxRequests ∧
    rlAllow 70000 [5] = (true, [70000]) := by
  obtain ⟨_, _, hc, hd, _, hf, hg⟩ := rateLimiter_window_amended
  refine ⟨?_, ?_, ?_, ?_⟩
  · exact hc [5, 7, 9] 5 (by decide) (by
      intro x hx
      fin_cases hx <;> simp)
  · exact hd 70001 [5] (by
      intro x hx
      fin_cases hx
      omega)
  · exact hf [5, 5, 9] 5 (by
      intro x hx
      fin_cases hx <;> simp)
  · exact hg 70000 [5] (by
      intro x hx
      fin_cases hx
      omega)

/-! ### C8: the response generator is the error boundary -/

/-- C8: for every intent and every behaviour of the data client and
portfolio store, `generateResponse` is a total function into replies (an
exception never propagates — failures live only inside
`generateResponseCore`); whenever the dispatch fails with message `m`,
the reply is the error-flagged one whose text contains `m`. -/
theorem generateResponse_error_boundary (intent : Intent) (api : CryptoAPI)
    (pf : PortfolioHook) (m : String)
    (h : generateResponseCore intent api pf = .error m) :
    generateResponse intent api pf = errorReply m ∧
    (generateResponse intent api pf).error = true ∧
    m.data <:+: (generateResponse intent api pf).text.data := by
  have hg : generateResponse intent api pf = errorReply m := by
    simp [generateResponse, h]
  refine ⟨hg, by simp [hg, errorReply], ?_⟩
  rw [hg]
  show m.data <:+:
    (("Sorry, I encountered an error: " ++ m) ++ (". Please try again." : String)).data
  rw [String.data_append, String.data_append]
  exact ⟨"Sorry, I encountered an error: ".data, ". Please try again.".data, by simp⟩

/-- A client whose every operation fails. -/
def failingAPI : CryptoAPI :=
  { getCurrentPrice := fun _ => .error "boom",
    getCoinDetails := fun _ => .error "boom",
    getHistoricalData := fun _ _ => .error "boom",
    getTrendingCoins := .error "boom",
    searchCoins := fun _ => .error "boom" }

/-- A portfolio hook whose every operation fails. -/
def failingHook : PortfolioHook :=
  { addHolding := fun _ _ _ _ => .error "boom",
    getPortfolioSummary := .error "boom" }

/-- C8 witness: a price query against a failing client produces the
error-flagged reply carrying the failure message. -/
theorem generateResponse_error_boundary_witness :
    generateResponse (.priceQuery "bitcoin" "bitcoin") failingAPI failingHook =
      errorReply "boom" ∧
    (generateResponse (.priceQuery "bitcoin" "bitcoin") failingAPI failingHook).error
      = true := by
  have h := generateResponse_error_boundary (.priceQuery "bitcoin" "bitcoin")
    failingAPI failingHook "boom" (by rfl)
  exact ⟨h.1, h.2.1⟩

/-! ### Matcher lemmas for the parser claims -/

/-- The lowercase ASCII letters (the alphabet of the quantified coin
words). -/
def lowerAlpha : List Char :=
  ['a','b','c','d','e','f','g','h','i','j','k','l','m',
   'n','o','p','q','r','s','t','u','v','w','x','y','z']

/-- The decimal digits. -/
def digitChars : List Char :=
  ['0','1','2','3','4','5','6','7','8','9']

/-- Case-insensitive "is a suffix of". -/
def ciSfx (p a : List Char) : Bool :=
  decide ((p.map lcc) <:+ (a.map lcc))

/-- Whether some non-empty proper prefix of `p` is (case-insensitively) a
suffix of `a` — the only way an occurrence of `p` can straddle the
boundary of `a ++ b`. -/
def spanPoss (p a : List Char) : Bool :=
  (List.range p.length).any (fun j => decide (1 ≤ j) && ciSfx (p.take j) a)

/-- `stripCI` succeeds exactly on case-insensitive prefixes. -/
theorem stripCI_isSome_iff : ∀ p s : List Char,
    (stripCI p s).isSome = true ↔ (p.map lcc) <+: (s.map lcc) := by
  intro p
  induction p with
  | nil => intro s; simp [stripCI]
  | cons a as ih =>
    intro s
    cases s with
    | nil => simp [stripCI]
    | cons c cs =>
      by_cases h : lcc a = lcc c
      · simp [stripCI, h, ih cs, List.prefix_cons_inj]
      · simp only [stripCI, h, if_false, List.map_cons, Option.isSome_none,
          List.cons_prefix_cons]
        simp [h]

/-- `occursCI` decides case-insensitive substring occurrence. -/
theorem occursCI_iff : ∀ s p : List Char,
    occursCI p s = true ↔ (p.map lcc) <:+: (s.map lcc) := by
  intro s
  induction s with
  | nil =>
    intro p
    simp only [occursCI, List.map_nil, List.infix_nil, stripCI_isSome_iff]
    simp
  | cons c cs ih =>
    intro p
    simp only [occursCI, Bool.or_eq_true, ih, List.map_cons, List.infix_cons_iff,
      stripCI_isSome_iff]

/-- Splitting a prefix of an append. -/
theorem prefix_append_split {α : Type} :
    ∀ (a : List α) (x b : List α), x <+: a ++ b →
      x <+: a ∨ (a <+: x ∧ x.drop a.length <+: b) := by
  intro a
  induction a with
  | nil => intro x b h; right; simpa using h
  | cons c a' ih =>
    intro x b h
    cases x with
    | nil => left; exact List.nil_prefix
    | cons d x' =>
      rw [List.cons_append, List.cons_prefix_cons] at h
      obtain ⟨rfl, h'⟩ := h
      rcases ih x' b h' with h1 | ⟨h2, h3⟩
      · left
        exact List.cons_prefix_cons.mpr ⟨rfl, h1⟩
      · right
        refine ⟨List.cons_prefix_cons.mpr ⟨rfl, h2⟩, ?_⟩
        simpa using h3

/-- Splitting an infix of an append: inside the left part, inside the
right part, or straddling the boundary. -/
theorem infix_append_split {α : Type} :
    ∀ (a : List α) (x b : List α), x <:+: a ++ b →
      x <:+: a ∨ x <:+: b ∨
        ∃ j, 0 < j ∧ j < x.length ∧ x.take j <:+ a ∧ x.drop j <+: b := by
  intro a
  induction a with
  | nil => intro x b h; right; left; simpa using h
  | cons c a' ih =>
    intro x b h
    rw [List.cons_append, List.infix_cons_iff] at h
    rcases h with h | h
    · rcases prefix_append_split (c :: a') x b h with h1 | ⟨h2, h3⟩
      · left; exact h1.isInfix
      · by_cases hlen : x.length ≤ (c :: a').length
        · left
          have hx : c :: a' = x := h2.eq_of_length_le hlen
          rw [← hx]
        · right; right
          have htake : c :: a' = x.take (c :: a').length :=
            List.prefix_iff_eq_take.mp h2
          refine ⟨(c :: a').length, by simp, by omega, ?_, h3⟩
          rw [← htake]
    · rcases ih x b h with h1 | h2 | ⟨j, hj1, hj2, hj3, hj4⟩
      · left; exact h1.trans (List.suffix_cons c a').isInfix
      · right; left; exact h2
      · right; right
        exact ⟨j, hj1, hj2, hj3.trans (List.suffix_cons c a'), hj4⟩

/-- Combine per-part non-occurrence into non-occurrence in the append. -/
theorem occursCI_append_false {p a b : List Char}
    (hc : occursCI p a = false) (hsp : spanPoss p a = false)
    (hb : occursCI p b = false) : occursCI p (a ++ b) = false := by
  by_contra habs
  have h : occursCI p (a ++ b) = true := by
    cases hab : occursCI p (a ++ b) with
    | false => exact absurd hab habs
    | true => rfl
  rw [occursCI_iff, List.map_append] at h
  rcases infix_append_split (a.map lcc) (p.map lcc) (b.map lcc) h with
    h1 | h2 | ⟨j, hj1, hj2, hj3, hj4⟩
  · rw [← occursCI_iff] at h1
    rw [h1] at hc
    exact absurd hc (by simp)
  · rw [← occursCI_iff] at h2
    rw [h2] at hb
    exact absurd hb (by simp)
  · have hsfx : ciSfx (p.take j) a = true := by
      rw [ciSfx, decide_eq_true_iff, List.map_take]
      exact hj3
    have hspan : spanPoss p a = true := by
      rw [spanPoss, List.any_eq_true]
      refine ⟨j, List.mem_range.mpr (by simpa using hj2), ?_⟩
      rw [Bool.and_eq_true]
      exact ⟨decide_eq_true hj1, hsfx⟩
    rw [hspan] at hsp
    exact absurd hsp (by simp)

/-- Non-occurrence transfers down case-insensitive prefixes. -/
theorem occursCI_mono {p q s : List Char} (hpq : (p.map lcc) <+: (q.map lcc))
    (h : occursCI p s = false) : occursCI q s = false := by
  by_contra habs
  have hq : occursCI q s = true := by
    cases hk : occursCI q s with
    | false => exact absurd hk habs
    | true => rfl
  rw [occursCI_iff] at hq
  have : occursCI p s = true := by
    rw [occursCI_iff]
    exact hpq.isInfix.trans hq
  rw [this] at h
  exact absurd h (by simp)

/-- A pattern containing a character foreign to the string cannot occur
in it. -/
theorem occursCI_char {p s : List Char} (c : Char) (hc : c ∈ p)
    (h : ∀ d ∈ s, lcc c ≠ lcc d) : occursCI p s = false := by
  by_contra habs
  have hq : occursCI p s = true := by
    cases hk : occursCI p s with
    | false => exact absurd hk habs
    | true => rfl
  rw [occursCI_iff] at hq
  have hmem : lcc c ∈ s.map lcc := hq.sublist.subset (List.mem_map_of_mem lcc hc)
  obtain ⟨d, hd, hde⟩ := List.mem_map.mp hmem
  exact h d hd hde.symm

/-- An alternation whose every literal fails at the current position
fails. -/
theorem tryAlts_none {α : Type} {alts : List (List Char)} {k : List Char → Option α}
    {s : List Char} (h : ∀ a ∈ alts, stripCI a s = none) : tryAlts alts k s = none := by
  induction alts with
  | nil => rfl
  | cons a rest ih =>
    rw [tryAlts, h a (by simp)]
    exact ih (fun a' ha' => h a' (by simp [ha']))

/-- A failed position steps the search to the next position. -/
theorem searchAlts_cons_none {α : Type} {alts : List (List Char)}
    {k : List Char → Option α} {c : Char} {rest : List Char}
    (h : tryAlts alts k (c :: rest) = none) :
    searchAlts alts k (c :: rest) = searchAlts alts k rest := by
  rw [searchAlts, h]

/-- If no alternative occurs anywhere in the input, the search fails
(whatever the continuation). -/
theorem searchAlts_none {α : Type} {alts : List (List Char)} {k : List Char → Option α} :
    ∀ {s : List Char}, (∀ a ∈ alts, occursCI a s = false) →
      searchAlts alts k s = none := by
  intro s
  induction s with
  | nil =>
    intro h
    rw [searchAlts]
    refine tryAlts_none (fun a ha => ?_)
    have := h a ha
    rw [occursCI] at this
    exact Option.not_isSome_iff_eq_none.mp (by simp [this])
  | cons c cs ih =>
    intro h
    have h0 : ∀ a ∈ alts, stripCI a (c :: cs) = none := by
      intro a ha
      have := h a ha
      rw [occursCI, Bool.or_eq_false_iff] at this
      exact Option.not_isSome_iff_eq_none.mp (by simp [this.1])
    have h1 : ∀ a ∈ alts, occursCI a cs = false := by
      intro a ha
      have := h a ha
      rw [occursCI, Bool.or_eq_false_iff] at this
      exact this.2
    rw [searchAlts_cons_none (tryAlts_none h0)]
    exact ih h1

/-- The lazy-capture worker fails when the suffix test rejects every
suffix of the remaining input. -/
theorem lazyGo_none {sfx : List Char → Bool} :
    ∀ {cs : List Char} {acc : List Char},
      (∀ r, r <:+ cs → sfx r = false) → lazyGo sfx acc cs = none := by
  intro cs
  induction cs with
  | nil =>
    intro acc h
    rw [lazyGo, h [] List.nil_suffix]
    rfl
  | cons d ds ih =>
    intro acc h
    rw [lazyGo, h (d :: ds) (List.suffix_refl _)]
    by_cases hd : dotCh d
    · rw [if_pos hd]
      exact ih (fun r hr => h r (hr.trans (List.suffix_cons d ds)))
    · rw [if_neg hd]
      rfl

/-- The lazy capture fails when the suffix test rejects every proper
suffix of the input. -/
theorem lazyCap_none {sfx : List Char → Bool} {s : List Char}
    (h : ∀ r, r <:+ s → r ≠ s → sfx r = false) : lazyCap sfx s = none := by
  cases s with
  | nil => rfl
  | cons c cs =>
    rw [lazyCap]
    by_cases hc : dotCh c
    · rw [if_pos hc]
      refine lazyGo_none (fun r hr => ?_)
      refine h r (hr.trans (List.suffix_cons c cs)) (fun habs => ?_)
      have := hr.length_le
      rw [habs] at this
      simp at this
    · rw [if_neg hc]

/-- `\s+ k` fails when `k` fails on every suffix. -/
theorem spMore_none {α : Type} {k : List Char → Option α} :
    ∀ {cs : List Char}, (∀ r, r <:+ cs → k r = none) → spMore k cs = none := by
  intro cs
  induction cs with
  | nil => intro h; rw [spMore]; exact h [] List.nil_suffix
  | cons c cs' ih =>
    intro h
    rw [spMore]
    by_cases hc : jsSpace c
    · rw [if_pos hc, ih (fun r hr => h r (hr.trans (List.suffix_cons c cs'))),
        h (c :: cs') (List.suffix_refl _)]
    · rw [if_neg hc]
      exact h (c :: cs') (List.suffix_refl _)

/-- `spPlus k` fails when `k` fails on every suffix. -/
theorem spPlus_none {α : Type} {k : List Char → Option α} {s : List Char}
    (h : ∀ r, r <:+ s → k r = none) : spPlus k s = none := by
  cases s with
  | nil => rfl
  | cons c cs =>
    rw [spPlus]
    by_cases hc : jsSpace c
    · rw [if_pos hc]
      exact spMore_none (fun r hr => h r (hr.trans (List.suffix_cons c cs)))
    · rw [if_neg hc]

/-- A suffix of an append lies in the right part or covers it whole. -/
theorem suffix_append_split {α : Type} :
    ∀ (a : List α) (r b : List α), r <:+ a ++ b →
      r <:+ b ∨ ∃ a', a' <:+ a ∧ a' ≠ [] ∧ r = a' ++ b := by
  intro a
  induction a with
  | nil => intro r b h; left; simpa using h
  | cons c a' ih =>
    intro r b h
    rw [List.cons_append, List.suffix_cons_iff] at h
    rcases h with h | h
    · right
      exact ⟨c :: a', List.suffix_refl _, by simp, by simp [h]⟩
    · rcases ih r b h with h1 | ⟨a'', h2, h3, h4⟩
      · left; exact h1
      · right
        exact ⟨a'', h2.trans (List.suffix_cons c a'), h3, h4⟩

/-- A suffix of a concrete list is one of its `drop`s. -/
theorem suffix_eq_drop {α : Type} {r s : List α} (h : r <:+ s) :
    ∃ i, i ≤ s.length ∧ r = s.drop i := by
  obtain ⟨t, ht⟩ := h
  exact ⟨t.length, by simp [← ht], by simp [← ht]⟩

/-- `takeWhile` over an all-satisfying prefix. -/
theorem takeWhile_all_append {p : α → Bool} :
    ∀ {u : List α}, (∀ c ∈ u, p c = true) →
      ∀ v : List α, (u ++ v).takeWhile p = u ++ v.takeWhile p := by
  intro u
  induction u with
  | nil => intro _ v; simp
  | cons c u' ih =>
    intro h v
    rw [List.cons_append, List.takeWhile_cons, if_pos (h c (by simp))]
    rw [ih (fun d hd => h d (by simp [hd])) v]
    simp

/-- `dropWhile` over an all-satisfying prefix. -/
theorem dropWhile_all_append {p : α → Bool} :
    ∀ {u : List α}, (∀ c ∈ u, p c = true) →
      ∀ v : List α, (u ++ v).dropWhile p = v.dropWhile p := by
  intro u
  induction u with
  | nil => intro _ v; simp
  | cons c u' ih =>
    intro h v
    rw [List.cons_append, List.dropWhile_cons, if_pos (h c (by simp))]
    exact ih (fun d hd => h d (by simp [hd])) v

/-- The words removed by `extractCoinName`'s four passes, together. -/
def ecnStop : List (List Char) :=
  ecnW1 ++ ecnW2 ++ [['t','o','k','e','n'], ['c','o','i','n']]

/-- Lower-casing fixes lowercase words. -/
theorem map_lcc_id {X : List Char} (h : ∀ c ∈ X, c ∈ lowerAlpha) :
    X.map lcc = X := by
  have hfix : ∀ c ∈ lowerAlpha, lcc c = c := by decide
  induction X with
  | nil => rfl
  | cons c cs ih =>
    rw [List.map_cons, hfix c (h c (by simp)), ih (fun d hd => h d (by simp [hd]))]

/-- A single all-word-character run survives word removal unless it is a
listed word. -/
theorem rmw_all_word {ws : List (List Char)} :
    ∀ {s : List Char}, (∀ c ∈ s, wordChar c = true) → ∀ cur : List Char,
      rmw ws cur s = (if (cur.reverse ++ s) ∈ ws then [] else cur.reverse ++ s) := by
  intro s
  induction s with
  | nil => intro _ cur; simp [rmw]
  | cons c cs ih =>
    intro h cur
    rw [rmw, if_pos (h c (by simp)), ih (fun d hd => h d (by simp [hd])) (c :: cur)]
    simp

/-- `rmWords` on a single letter word. -/
theorem rmWords_word {ws : List (List Char)} {s : List Char}
    (h : ∀ c ∈ s, wordChar c = true) (hs : s ∉ ws) : rmWords ws s = s := by
  rw [rmWords, rmw_all_word h []]
  simp [hs]

/-- Whitespace collapse fixes space-free strings. -/
theorem collWS_no_space : ∀ {s : List Char}, (∀ c ∈ s, jsSpace c = false) →
    ∀ b : Bool, collWS b s = s := by
  intro s
  induction s with
  | nil => intro _ b; rfl
  | cons c cs ih =>
    intro h b
    rw [collWS]
    rw [if_neg (by simp [h c (by simp)])]
    rw [ih (fun d hd => h d (by simp [hd])) false]

/-- Trim fixes space-free strings. -/
theorem jsTrim_no_space {s : List Char} (h : ∀ c ∈ s, jsSpace c = false) :
    jsTrim s = s := by
  have h1 : s.dropWhile jsSpace = s := by
    cases s with
    | nil => rfl
    | cons c cs => rw [List.dropWhile_cons, if_neg (by simp [h c (by simp)])]
  have h2 : s.reverse.dropWhile jsSpace = s.reverse := by
    cases hs : s.reverse with
    | nil => rfl
    | cons c cs =>
      rw [List.dropWhile_cons, if_neg ?_]
      have : c ∈ s := by
        rw [← List.mem_reverse, hs]
        simp
      simp [h c this]
  rw [jsTrim, h1, h2, List.reverse_reverse]

/-- `extractCoinName` fixes a lowercase letter word that is not one of
the removed filler words. -/
theorem extractCoinName_id {X : List Char} (hX : ∀ c ∈ X, c ∈ lowerAlpha)
    (hstop : X ∉ ecnStop) : extractCoinName X = X := by
  have hword : ∀ c ∈ X, wordChar c = true := by
    have : ∀ c ∈ lowerAlpha, wordChar c = true := by decide
    exact fun c hc => this c (hX c hc)
  have hnsp : ∀ c ∈ X, jsSpace c = false := by
    have : ∀ c ∈ lowerAlpha, jsSpace c = false := by decide
    exact fun c hc => this c (hX c hc)
  have hs : ∀ ws : List (List Char), (∀ w ∈ ws, w ∈ ecnStop) → X ∉ ws := by
    intro ws hws hmem
    exact hstop (hws X hmem)
  rw [extractCoinName, map_lcc_id hX]
  rw [rmWords_word hword (hs _ (by intro w hw; simp [ecnStop]; tauto))]
  rw [rmWords_word hword (hs _ (by intro w hw; simp [ecnStop]; tauto))]
  rw [rmWords_word hword (hs _ (by intro w hw; simp at hw; subst hw; simp [ecnStop]))]
  rw [rmWords_word hword (hs _ (by intro w hw; simp at hw; subst hw; simp [ecnStop]))]
  rw [List.filter_eq_self.mpr (fun c hc => by simp [hword c hc])]
  rw [collWS_no_space hnsp false]
  exact jsTrim_no_space hnsp

/-- `stripCI` matches a literal against itself (any case-preserving
copy), returning the remainder. -/
theorem stripCI_self_append : ∀ p r : List Char, stripCI p (p ++ r) = some r := by
  intro p r
  induction p with
  | nil => rfl
  | cons a as ih => rw [List.cons_append, stripCI, if_pos rfl, ih]

/-- A successful `stripCI` returns a suffix of its input. -/
theorem stripCI_suffix : ∀ {p s r : List Char}, stripCI p s = some r → r <:+ s := by
  intro p
  induction p with
  | nil =>
    intro s r h
    rw [stripCI] at h
    cases h
    exact List.suffix_refl _
  | cons a as ih =>
    intro s r h
    cases s with
    | nil => exact absurd h (by rw [stripCI]; simp)
    | cons c cs =>
      rw [stripCI] at h
      by_cases hc : lcc a = lcc c
      · rw [if_pos hc] at h
        exact (ih h).trans (List.suffix_cons c cs)
      · rw [if_neg hc] at h
        cases h

/-- Non-occurrence kills the anchored prefix match. -/
theorem stripCI_none_of_not_occurs {p s : List Char} (h : occursCI p s = false) :
    stripCI p s = none := by
  cases s with
  | nil =>
    rw [occursCI] at h
    exact Option.not_isSome_iff_eq_none.mp (by simp [h])
  | cons c cs =>
    rw [occursCI, Bool.or_eq_false_iff] at h
    exact Option.not_isSome_iff_eq_none.mp (by simp [h.1])

/-- An alternation fails when the continuation fails on every suffix. -/
theorem tryAlts_none_of_k {α : Type} {k : List Char → Option α} {s : List Char}
    (h : ∀ r, r <:+ s → k r = none) : ∀ alts, tryAlts alts k s = none := by
  intro alts
  induction alts with
  | nil => rfl
  | cons a rest ih =>
    rw [tryAlts]
    cases hst : stripCI a s with
    | none => exact ih
    | some r => simp [h r (stripCI_suffix hst), ih]

/-- The search fails when the continuation fails on every suffix of the
input. -/
theorem searchAlts_none_of_k {α : Type} {k : List Char → Option α}
    {alts : List (List Char)} :
    ∀ {s : List Char}, (∀ r, r <:+ s → k r = none) → searchAlts alts k s = none := by
  intro s
  induction s with
  | nil =>
    intro h
    rw [searchAlts]
    exact tryAlts_none_of_k h alts
  | cons c cs ih =>
    intro h
    rw [searchAlts, tryAlts_none_of_k h alts]
    exact ih (fun r hr => h r (hr.trans (List.suffix_cons c cs)))

/-- A successful `spMore` ran its continuation on a suffix. -/
theorem spMore_some {α : Type} {k : List Char → Option α} :
    ∀ {cs : List Char} {x : α}, spMore k cs = some x → ∃ r, r <:+ cs ∧ k r = some x := by
  intro cs
  induction cs with
  | nil =>
    intro x h
    rw [spMore] at h
    exact ⟨[], List.suffix_refl _, h⟩
  | cons c cs' ih =>
    intro x h
    rw [spMore] at h
    by_cases hc : jsSpace c
    · rw [if_pos hc] at h
      cases hs : spMore k cs' with
      | some y =>
        rw [hs] at h
        cases h
        obtain ⟨r, hr, hk⟩ := ih hs
        exact ⟨r, hr.trans (List.suffix_cons c cs'), hk⟩
      | none =>
        rw [hs] at h
        exact ⟨c :: cs', List.suffix_refl _, h⟩
    · rw [if_neg hc] at h
      exact ⟨c :: cs', List.suffix_refl _, h⟩

/-- A successful `spPlus` ran its continuation on a suffix. -/
theorem spPlus_some {α : Type} {k : List Char → Option α} {s : List Char} {x : α}
    (h : spPlus k s = some x) : ∃ r, r <:+ s ∧ k r = some x := by
  cases s with
  | nil => cases h
  | cons c cs =>
    rw [spPlus] at h
    by_cases hc : jsSpace c
    · rw [if_pos hc] at h
      obtain ⟨r, hr, hk⟩ := spMore_some h
      exact ⟨r, hr.trans (List.suffix_cons c cs), hk⟩
    · rw [if_neg hc] at h
      cases h

/-- Non-occurrence propagates up from suffixes. -/
theorem occursCI_suffix {p r s : List Char} (hr : r <:+ s)
    (h : occursCI p s = false) : occursCI p r = false := by
  cases hq : occursCI p r with
  | false => rfl
  | true =>
    rw [occursCI_iff] at hq
    have : occursCI p s = true := by
      rw [occursCI_iff]
      exact hq.trans ((hr.map lcc).isInfix)
    rw [this] at h
    cases h

/-- A match of `PRICE_SIMPLE`'s suffix pattern exhibits `price`. -/
theorem sfxPS_occurs {r : List Char} (h : sfxPS r = true) :
    occursCI ['p','r','i','c','e'] r = true := by
  rw [sfxPS] at h
  rw [Option.isSome_iff_exists] at h
  obtain ⟨x, hx⟩ := h
  obtain ⟨r2, hr2, hk⟩ := spPlus_some hx
  cases hst : stripCI ['p','r','i','c','e'] r2 with
  | none => rw [hst] at hk; cases hk
  | some r3 =>
    have hpre : (['p','r','i','c','e'].map lcc) <+: (r2.map lcc) := by
      rw [← stripCI_isSome_iff]
      simp [hst]
    rw [occursCI_iff]
    exact hpre.isInfix.trans (hr2.map lcc).isInfix

/-- `PRICE_SIMPLE` cannot match an input in which `price` never occurs. -/
theorem matchPS_none {s : List Char}
    (h : occursCI ['p','r','i','c','e'] s = false) : matchPS s = none := by
  refine lazyCap_none (fun r hr _ => ?_)
  cases hx : sfxPS r with
  | false => rfl
  | true =>
    have := sfxPS_occurs hx
    rw [occursCI_suffix hr h] at this
    cases this

/-- `ADD_HOLDING` cannot match a digit-free input. -/
theorem matchAH_none {s : List Char} (h : ∀ c ∈ s, digitCh c = false) :
    matchAH s = none := by
  refine searchAlts_none_of_k (fun r hr => ?_)
  refine spPlus_none (fun r2 hr2 => ?_)
  cases r2 with
  | nil => rfl
  | cons c cs =>
    rw [ahNum, if_neg ?_]
    have : c ∈ s := hr.subset (hr2.subset (by simp))
    simp [h c this]

/-- No non-empty prefix of `c :: p'` can be a (case-insensitive) suffix
of a string whose characters all differ from `c` under lower-casing. -/
theorem spanPoss_false_of_char {p' N : List Char} {c : Char}
    (h : ∀ d ∈ N, lcc c ≠ lcc d) : spanPoss (c :: p') N = false := by
  cases hsp : spanPoss (c :: p') N with
  | false => rfl
  | true =>
    rw [spanPoss, List.any_eq_true] at hsp
    obtain ⟨j, _, hj⟩ := hsp
    rw [Bool.and_eq_true, decide_eq_true_iff, ciSfx, decide_eq_true_iff] at hj
    obtain ⟨hj1, hsfx⟩ := hj
    have hc : lcc c ∈ ((c :: p').take j).map lcc := by
      cases j with
      | zero => omega
      | succ j' => simp
    have := hsfx.sublist.subset hc
    obtain ⟨d, hd, hde⟩ := List.mem_map.mp this
    exact absurd hde.symm (h d hd)

/-- `spPlus` over a single space followed by a non-space head runs the
continuation there. -/
theorem spPlus_space_cons {α : Type} {k : List Char → Option α} {c : Char}
    {cs : List Char} (hc : jsSpace c = false) :
    spPlus k (' ' :: c :: cs) = k (c :: cs) := by
  rw [spPlus, if_pos (by decide), spMore, if_neg (by simp [hc])]

/-- The lazy worker captures the whole remaining input when the suffix
test accepts only the empty remainder. -/
theorem lazyGo_full {sfx : List Char → Bool} :
    ∀ {cs : List Char}, (∀ c ∈ cs, dotCh c = true) →
      (∀ r, r <:+ cs → r ≠ [] → sfx r = false) → sfx [] = true →
      ∀ acc, lazyGo sfx acc cs = some (acc.reverse ++ cs) := by
  intro cs
  induction cs with
  | nil =>
    intro _ _ hnil acc
    rw [lazyGo, if_pos hnil]
    simp
  | cons d ds ih =>
    intro hdot hr hnil acc
    rw [lazyGo, hr (d :: ds) (List.suffix_refl _) (by simp),
      if_pos (hdot d (by simp))]
    rw [ih (fun c hc => hdot c (by simp [hc]))
      (fun r h1 h2 => hr r (h1.trans (List.suffix_cons d ds)) h2) hnil (d :: acc)]
    simp

/-- The lazy capture takes the whole input when the suffix test accepts
only the empty remainder. -/
theorem lazyCap_full {sfx : List Char → Bool} {s : List Char} (hne : s ≠ [])
    (hdot : ∀ c ∈ s, dotCh c = true)
    (hr : ∀ r, r <:+ s → r ≠ [] → r ≠ s → sfx r = false) (hnil : sfx [] = true) :
    lazyCap sfx s = some s := by
  cases s with
  | nil => exact absurd rfl hne
  | cons c cs =>
    rw [lazyCap, if_pos (hdot c (by simp))]
    rw [lazyGo_full (fun d hd => hdot d (by simp [hd])) ?_ hnil [c]]
    · simp
    · intro r h1 h2
      refine hr r (h1.trans (List.suffix_cons c cs)) h2 (fun habs => ?_)
      have := h1.length_le
      rw [habs] at this
      simp at this

/-- `takeWhile` keeps an all-satisfying list. -/
theorem takeWhile_all {p : α → Bool} {u : List α} (h : ∀ c ∈ u, p c = true) :
    u.takeWhile p = u := by
  simpa using takeWhile_all_append h []

/-- `dropWhile` clears an all-satisfying list. -/
theorem dropWhile_all {p : α → Bool} {u : List α} (h : ∀ c ∈ u, p c = true) :
    u.dropWhile p = [] := by
  simpa using dropWhile_all_append h []

/-- The holding-info search skips a digit-free prefix. -/
theorem ehiSearch_skip : ∀ {u : List Char}, (∀ c ∈ u, digitCh c = false) →
    ∀ r, ehiSearch (u ++ r) = ehiSearch r := by
  intro u
  induction u with
  | nil => intro _ r; rfl
  | cons c u' ih =>
    intro h r
    rw [List.cons_append, ehiSearch, ehiHere, if_neg (by simp [h c (by simp)])]
    exact ih (fun d hd => h d (by simp [hd])) r

/-- Character-class facts for lowercase letter words. -/
theorem lowerAlpha_facts {X : List Char} (h : ∀ c ∈ X, c ∈ lowerAlpha) :
    (∀ c ∈ X, digitCh c = false) ∧ (∀ c ∈ X, jsSpace c = false) ∧
    (∀ c ∈ X, dotCh c = true) ∧ (∀ c ∈ X, wordChar c = true) := by
  have h1 : ∀ c ∈ lowerAlpha, digitCh c = false := by decide
  have h2 : ∀ c ∈ lowerAlpha, jsSpace c = false := by decide
  have h3 : ∀ c ∈ lowerAlpha, dotCh c = true := by decide
  have h4 : ∀ c ∈ lowerAlpha, wordChar c = true := by decide
  exact ⟨fun c hc => h1 c (h c hc), fun c hc => h2 c (h c hc),
    fun c hc => h3 c (h c hc), fun c hc => h4 c (h c hc)⟩

/-- A pattern containing a space cannot occur in a letter word. -/
theorem occursCI_space_letters {p X : List Char} (hp : ' ' ∈ p)
    (hX : ∀ c ∈ X, c ∈ lowerAlpha) : occursCI p X = false := by
  refine occursCI_char ' ' hp (fun d hd => ?_)
  exact (show ∀ c ∈ lowerAlpha, lcc ' ' ≠ lcc c by decide) d (hX d hd)

/-- `\s+ …` fails on a letter word (or the empty remainder). -/
theorem spPlus_letters_none {α : Type} {k : List Char → Option α} {r : List Char}
    (h : ∀ c ∈ r, c ∈ lowerAlpha) : spPlus k r = none := by
  cases r with
  | nil => rfl
  | cons c cs =>
    rw [spPlus, if_neg ?_]
    have := (lowerAlpha_facts h).2.1 c (by simp)
    simp [this]

/-- `PRICE_TRADING`'s suffix test rejects letter-word remainders. -/
theorem sfxPT_letters {r : List Char} (h : ∀ c ∈ r, c ∈ lowerAlpha) :
    sfxPT r = false := by
  rw [sfxPT, spPlus_letters_none h]
  rfl

/-- `PRICE_QUERY`'s suffix test rejects non-empty letter-word
remainders. -/
theorem sfxPQ_letters {r : List Char} (hne : r ≠ []) (h : ∀ c ∈ r, c ∈ lowerAlpha) :
    sfxPQ r = false := by
  cases r with
  | nil => exact absurd rfl hne
  | cons c cs =>
    have hq : (c :: cs) ≠ ['?'] := by
      intro habs
      have hc : c ∈ lowerAlpha := h c (by simp)
      rw [List.cons.injEq] at habs
      rw [habs.1] at hc
      exact absurd hc (by decide)
    rw [sfxPQ, spPlus_letters_none h]
    simp [hq]

/-- `ADD_HOLDING`'s trailing-word test rejects non-empty letter-word
remainders. -/
theorem sfxAH_letters {r : List Char} (hne : r ≠ []) (h : ∀ c ∈ r, c ∈ lowerAlpha) :
    sfxAH r = false := by
  cases r with
  | nil => exact absurd rfl hne
  | cons c cs =>
    rw [sfxAH, spPlus_letters_none h]
    simp

/-- Trim fixes a string with a non-space head whose tail ends in a
non-empty all-non-space block. -/
theorem jsTrim_cons_append {c : Char} {mid X : List Char} (hc : jsSpace c = false)
    (hX : X ≠ []) (hXs : ∀ d ∈ X, jsSpace d = false) :
    jsTrim (c :: (mid ++ X)) = c :: (mid ++ X) := by
  have h1 : (c :: (mid ++ X)).dropWhile jsSpace = c :: (mid ++ X) := by
    rw [List.dropWhile_cons, if_neg (by simp [hc])]
  have h2 : (c :: (mid ++ X)).reverse.dropWhile jsSpace = (c :: (mid ++ X)).reverse := by
    cases hrev : X.reverse with
    | nil => exact absurd (by simpa using congrArg List.reverse hrev) hX
    | cons x xs =>
      have hxX : x ∈ X := by
        rw [← List.mem_reverse, hrev]
        simp
      rw [List.reverse_cons, List.reverse_append, hrev, List.cons_append,
        List.cons_append, List.dropWhile_cons, if_neg (by simp [hXs x hxX])]
  rw [jsTrim, h1, h2, List.reverse_reverse]

/-- The greedy name capture after one space: `\s+(.+)` takes the whole
letter word. -/
theorem spPlus_dotPlus_word {X : List Char} (hne : X ≠ [])
    (hX : ∀ c ∈ X, c ∈ lowerAlpha) : spPlus dotPlus (' ' :: X) = some X := by
  cases X with
  | nil => exact absurd rfl hne
  | cons x xs =>
    rw [spPlus_space_cons ((lowerAlpha_facts hX).2.1 x (by simp))]
    rw [dotPlus, if_pos ((lowerAlpha_facts hX).2.2.1 x (by simp))]
    rw [takeWhile_all (fun d hd => (lowerAlpha_facts hX).2.2.1 d (by simp [hd]))]

/-- A position-0 hit decides the search. -/
theorem searchAlts_hit {α : Type} {alts : List (List Char)} {k : List Char → Option α}
    {s : List Char} {x : α} (h : tryAlts alts k s = some x) :
    searchAlts alts k s = some x := by
  cases s with
  | nil => rw [searchAlts]; exact h
  | cons c cs => rw [searchAlts, h]

/-- The `tell me about` keyword literal. -/
def tmaL : List Char := ['t','e','l','l',' ','m','e',' ','a','b','o','u','t']

/-- `INFO_REQUEST` matches `tell me about X` at position 0, capturing the
whole word. -/
theorem matchInfo_tma {X : List Char} (hne : X ≠ [])
    (hX : ∀ c ∈ X, c ∈ lowerAlpha) :
    matchInfo (tmaL ++ ' ' :: X) = some X := by
  have h1 : stripCI tmaL (tmaL ++ ' ' :: X) = some (' ' :: X) := stripCI_self_append _ _
  have htail : tailInfo (' ' :: X) = some X := by
    rw [tailInfo]
    exact spPlus_dotPlus_word hne hX
  refine searchAlts_hit ?_
  show tryAlts (tmaL :: [['i','n','f','o',' ','a','b','o','u','t'],
    ['i','n','f','o','r','m','a','t','i','o','n',' ','a','b','o','u','t'],
    ['w','h','a','t',' ','i','s']]) tailInfo (tmaL ++ ' ' :: X) = some X
  rw [tryAlts, h1]
  simp [htail]

/-- Fail the whole cascade above `INFO_REQUEST` on `conc ++ X` and
dispatch `INFO_REQUEST`'s capture, given per-pattern failure facts. -/
theorem parseMessageL_info_path {t X : List Char}
    (htrim : jsTrim t = t)
    (hPT : matchPT t = none) (hPQ : matchPQ t = none) (hPS : matchPS t = none)
    (hAH : matchAH t = none) (hPV : testPV t = false) (hTR : testTR t = false)
    (hCH : matchCH t = none) (hInfo : matchInfo t = some X) :
    parseMessageL t = coinIntent .infoRequest X := by
  rw [parseMessageL, htrim, hPT, hPQ, hPS, hAH, parseMessageRest, hPV, hTR]
  simp only [Bool.false_eq_true, if_false]
  rw [hCH, hInfo]

/-- `parse` on `tell me about X` for a lowercase letter word `X` that
avoids the earlier patterns' keywords: the whole cascade above rule 8
fails and `InfoRequest` fires with the alias-resolved name. -/
theorem parse_tell_me_about {X : List Char} (hne : X ≠ [])
    (hX : ∀ c ∈ X, c ∈ lowerAlpha)
    (hwhat : occursCI ['w','h','a','t'] X = false)
    (hprice : occursCI ['p','r','i','c','e'] X = false)
    (hpf : occursCI ['p','o','r','t','f','o','l','i','o'] X = false)
    (htr : occursCI ['t','r','e','n','d','i','n','g'] X = false)
    (hhot : occursCI ['h','o','t'] X = false)
    (hpop : occursCI ['p','o','p','u','l','a','r'] X = false)
    (htop : occursCI ['t','o','p'] X = false)
    (hch : occursCI ['c','h','a','r','t'] X = false)
    (hgr : occursCI ['g','r','a','p','h'] X = false)
    (hstop : X ∉ ecnStop) :
    parseMessageL (tmaL ++ ' ' :: X) =
      .infoRequest (normalizeCoinName (String.mk X)) (String.mk X) := by
  have hXsp := (lowerAlpha_facts hX).2.1
  have hXdig := (lowerAlpha_facts hX).1
  have hsplit : tmaL ++ ' ' :: X = (tmaL ++ [' ']) ++ X := by simp
  have hocc : ∀ a ∈ whatAlts ++ pqAlts ++ pvAlts ++ trAlts ++ chAlts,
      occursCI a (tmaL ++ ' ' :: X) = false := by
    intro a ha
    rw [hsplit]
    simp only [whatAlts, pqAlts, pvAlts, trAlts, chAlts, List.mem_append,
      List.mem_cons, List.not_mem_nil, or_false] at ha
    rcases ha with ((((rfl | rfl | rfl) | (rfl | rfl | rfl | rfl | rfl | rfl)) |
      (rfl | rfl | rfl | rfl | rfl | rfl)) | (rfl | rfl | rfl | rfl)) |
      (rfl | rfl | rfl | rfl)
    · exact occursCI_append_false (by decide) (by decide)
        (occursCI_mono (by decide) hwhat)
    · exact occursCI_append_false (by decide) (by decide)
        (occursCI_mono (by decide) hwhat)
    · exact occursCI_append_false (by decide) (by decide)
        (occursCI_space_letters (by decide) hX)
    · exact occursCI_append_false (by decide) (by decide)
        (occursCI_mono (by decide) hwhat)
    · exact occursCI_append_false (by decide) (by decide)
        (occursCI_mono (by decide) hwhat)
    · exact occursCI_append_false (by decide) (by decide)
        (occursCI_space_letters (by decide) hX)
    · exact occursCI_append_false (by decide) (by decide)
        (occursCI_space_letters (by decide) hX)
    · exact occursCI_append_false (by decide) (by decide)
        (occursCI_space_letters (by decide) hX)
    · exact occursCI_append_false (by decide) (by decide)
        (occursCI_space_letters (by decide) hX)
    · exact occursCI_append_false (by decide) (by decide) hpf
    · exact occursCI_append_false (by decide) (by decide)
        (occursCI_space_letters (by decide) hX)
    · exact occursCI_append_false (by decide) (by decide)
        (occursCI_space_letters (by decide) hX)
    · exact occursCI_append_false (by decide) (by decide)
        (occursCI_space_letters (by decide) hX)
    · exact occursCI_append_false (by decide) (by decide)
        (occursCI_space_letters (by decide) hX)
    · exact occursCI_append_false (by decide) (by decide)
        (occursCI_space_letters (by decide) hX)
    · exact occursCI_append_false (by decide) (by decide) htr
    · exact occursCI_append_false (by decide) (by decide) hhot
    · exact occursCI_append_false (by decide) (by decide) hpop
    · exact occursCI_append_false (by decide) (by decide) htop
    · exact occursCI_append_false (by decide) (by decide) hch
    · exact occursCI_append_false (by decide) (by decide) hgr
    · exact occursCI_append_false (by decide) (by decide)
        (occursCI_space_letters (by decide) hX)
    · exact occursCI_append_false (by decide) (by decide)
        (occursCI_space_letters (by decide) hX)
  have hdigfree : ∀ c ∈ tmaL ++ ' ' :: X, digitCh c = false := by
    intro c hc
    rw [hsplit] at hc
    rcases List.mem_append.mp hc with h | h
    · exact (show ∀ c ∈ tmaL ++ [' '], digitCh c = false by decide) c h
    · exact hXdig c h
  have hiPath := parseMessageL_info_path
    (t := tmaL ++ ' ' :: X) (X := X)
    (by
      rw [hsplit]
      exact @jsTrim_cons_append 't'
        ['e','l','l',' ','m','e',' ','a','b','o','u','t',' '] X (by decide)
        hne hXsp)
    (searchAlts_none (fun a ha => hocc a (by simp [ha])))
    (searchAlts_none (fun a ha => hocc a (by simp [ha])))
    (matchPS_none (by
      rw [hsplit]
      exact occursCI_append_false (by decide) (by decide) hprice))
    (matchAH_none hdigfree)
    (by
      rw [testPV, containsAnyCI, List.any_eq_false]
      intro a ha
      simp only [Bool.not_eq_true]
      exact hocc a (by simp [ha]))
    (by
      rw [testTR, containsAnyCI, List.any_eq_false]
      intro a ha
      simp only [Bool.not_eq_true]
      exact hocc a (by simp [ha]))
    (searchAlts_none (fun a ha => hocc a (by simp [ha])))
    (matchInfo_tma hne hX)
  rw [hiPath, coinIntent, extractCoinName_id hX hstop]

/-- The `info about` keyword literal. -/
def iaL : List Char := ['i','n','f','o',' ','a','b','o','u','t']

/-- `INFO_REQUEST` matches `info about X` (its first alternative fails on
the `i`). -/
theorem matchInfo_ia {X : List Char} (hne : X ≠ [])
    (hX : ∀ c ∈ X, c ∈ lowerAlpha) :
    matchInfo (iaL ++ ' ' :: X) = some X := by
  have h0 : stripCI tmaL (iaL ++ ' ' :: X) = none := by
    simp [stripCI, tmaL, iaL, lcc]
  have h1 : stripCI iaL (iaL ++ ' ' :: X) = some (' ' :: X) := stripCI_self_append _ _
  have htail : tailInfo (' ' :: X) = some X := by
    rw [tailInfo]
    exact spPlus_dotPlus_word hne hX
  refine searchAlts_hit ?_
  show tryAlts (tmaL :: iaL ::
    [['i','n','f','o','r','m','a','t','i','o','n',' ','a','b','o','u','t'],
     ['w','h','a','t',' ','i','s']]) tailInfo (iaL ++ ' ' :: X) = some X
  rw [tryAlts, h0, tryAlts, h1]
  simp [htail]

/-- `parse` on `info about X` under the same side conditions. -/
theorem parse_info_about {X : List Char} (hne : X ≠ [])
    (hX : ∀ c ∈ X, c ∈ lowerAlpha)
    (hwhat : occursCI ['w','h','a','t'] X = false)
    (hprice : occursCI ['p','r','i','c','e'] X = false)
    (hpf : occursCI ['p','o','r','t','f','o','l','i','o'] X = false)
    (htr : occursCI ['t','r','e','n','d','i','n','g'] X = false)
    (hhot : occursCI ['h','o','t'] X = false)
    (hpop : occursCI ['p','o','p','u','l','a','r'] X = false)
    (htop : occursCI ['t','o','p'] X = false)
    (hch : occursCI ['c','h','a','r','t'] X = false)
    (hgr : occursCI ['g','r','a','p','h'] X = false)
    (hstop : X ∉ ecnStop) :
    parseMessageL (iaL ++ ' ' :: X) =
      .infoRequest (normalizeCoinName (String.mk X)) (String.mk X) := by
  have hXsp := (lowerAlpha_facts hX).2.1
  have hXdig := (lowerAlpha_facts hX).1
  have hsplit : iaL ++ ' ' :: X = (iaL ++ [' ']) ++ X := by simp
  have hocc : ∀ a ∈ whatAlts ++ pqAlts ++ pvAlts ++ trAlts ++ chAlts,
      occursCI a (iaL ++ ' ' :: X) = false := by
    intro a ha
    rw [hsplit]
    simp only [whatAlts, pqAlts, pvAlts, trAlts, chAlts, List.mem_append,
      List.mem_cons, List.not_mem_nil, or_false] at ha
    rcases ha with ((((rfl | rfl | rfl) | (rfl | rfl | rfl | rfl | rfl | rfl)) |
      (rfl | rfl | rfl | rfl | rfl | rfl)) | (rfl | rfl | rfl | rfl)) |
      (rfl | rfl | rfl | rfl)
    · exact occursCI_append_false (by decide) (by decide)
        (occursCI_mono (by decide) hwhat)
    · exact occursCI_append_false (by decide) (by decide)
        (occursCI_mono (by decide) hwhat)
    · exact occursCI_append_false (by decide) (by decide)
        (occursCI_space_letters (by decide) hX)
    · exact occursCI_append_false (by decide) (by decide)
        (occursCI_mono (by decide) hwhat)
    · exact occursCI_append_false (by decide) (by decide)
        (occursCI_mono (by decide) hwhat)
    · exact occursCI_append_false (by decide) (by decide)
        (occursCI_space_letters (by decide) hX)
    · exact occursCI_append_false (by decide) (by decide)
        (occursCI_space_letters (by decide) hX)
    · exact occursCI_append_false (by decide) (by decide)
        (occursCI_space_letters (by decide) hX)
    · exact occursCI_append_false (by decide) (by decide)
        (occursCI_space_letters (by decide) hX)
    · exact occursCI_append_false (by decide) (by decide) hpf
    · exact occursCI_append_false (by decide) (by decide)
        (occursCI_space_letters (by decide) hX)
    · exact occursCI_append_false (by decide) (by decide)
        (occursCI_space_letters (by decide) hX)
    · exact occursCI_append_false (by decide) (by decide)
        (occursCI_space_letters (by decide) hX)
    · exact occursCI_append_false (by decide) (by decide)
        (occursCI_space_letters (by decide) hX)
    · exact occursCI_append_false (by decide) (by decide)
        (occursCI_space_letters (by decide) hX)
    · exact occursCI_append_false (by decide) (by decide) htr
    · exact occursCI_append_false (by decide) (by decide) hhot
    · exact occursCI_append_false (by decide) (by decide) hpop
    · exact occursCI_append_false (by decide) (by decide) htop
    · exact occursCI_append_false (by decide) (by decide) hch
    · exact occursCI_append_false (by decide) (by decide) hgr
    · exact occursCI_append_false (by decide) (by decide)
        (occursCI_space_letters (by decide) hX)
    · exact occursCI_append_false (by decide) (by decide)
        (occursCI_space_letters (by decide) hX)
  have hdigfree : ∀ c ∈ iaL ++ ' ' :: X, digitCh c = false := by
    intro c hc
    rw [hsplit] at hc
    rcases List.mem_append.mp hc with h | h
    · exact (show ∀ c ∈ iaL ++ [' '], digitCh c = false by decide) c h
    · exact hXdig c h
  have hiPath := parseMessageL_info_path
    (t := iaL ++ ' ' :: X) (X := X)
    (by
      rw [hsplit]
      exact @jsTrim_cons_append 'i'
        ['n','f','o',' ','a','b','o','u','t',' '] X (by decide)
        hne hXsp)
    (searchAlts_none (fun a ha => hocc a (by simp [ha])))
    (searchAlts_none (fun a ha => hocc a (by simp [ha])))
    (matchPS_none (by
      rw [hsplit]
      exact occursCI_append_false (by decide) (by decide) hprice))
    (matchAH_none hdigfree)
    (by
      rw [testPV, containsAnyCI, List.any_eq_false]
      intro a ha
      simp only [Bool.not_eq_true]
      exact hocc a (by simp [ha]))
    (by
      rw [testTR, containsAnyCI, List.any_eq_false]
      intro a ha
      simp only [Bool.not_eq_true]
      exact hocc a (by simp [ha]))
    (searchAlts_none (fun a ha => hocc a (by simp [ha])))
    (matchInfo_ia hne hX)
  rw [hiPath, coinIntent, extractCoinName_id hX hstop]

/-- The `what is` keyword literal. -/
def waiL : List Char := ['w','h','a','t',' ','i','s']

/-- `PRICE_TRADING` fails on `what is X` for a letter word `X`: the
mandatory `trading at` tail never follows. -/
theorem matchPT_what_is {X : List Char} (hX : ∀ c ∈ X, c ∈ lowerAlpha)
    (hwhat : occursCI ['w','h','a','t'] X = false) :
    matchPT (waiL ++ ' ' :: X) = none := by
  have hsfx : ∀ r, r <:+ X → sfxPT r = false := by
    intro r hr
    rw [sfxPT, spPlus_letters_none (fun c hc => hX c (hr.subset hc))]
    rfl
  have hlazy : ∀ r, r <:+ (' ' :: X) → lazyCap sfxPT r = none := by
    intro r hr
    rw [List.suffix_cons_iff] at hr
    rcases hr with rfl | hr
    · rw [lazyCap, if_pos (by decide)]
      exact lazyGo_none hsfx
    · exact lazyCap_none (fun r2 h2 _ => hsfx r2 (h2.trans hr))
  have hk : spPlus (lazyCap sfxPT) (' ' :: X) = none := spPlus_none hlazy
  have hs1 : stripCI whatAposS (waiL ++ ' ' :: X) = none := by
    simp [stripCI, whatAposS, waiL, lcc, apos]
  have hs2 : stripCI ['w','h','a','t','s'] (waiL ++ ' ' :: X) = none := by
    simp [stripCI, waiL, lcc]
  have hs3 : stripCI ['w','h','a','t',' ','i','s'] (waiL ++ ' ' :: X) =
      some (' ' :: X) := stripCI_self_append _ _
  have h0 : tryAlts whatAlts (spPlus (lazyCap sfxPT)) (waiL ++ ' ' :: X) = none := by
    show tryAlts (whatAposS :: ['w','h','a','t','s'] ::
      [['w','h','a','t',' ','i','s']]) _ _ = none
    simp [tryAlts, hs1, hs2, hs3, hk]
  have hrest : searchAlts whatAlts (spPlus (lazyCap sfxPT))
      (['h','a','t',' ','i','s',' '] ++ X) = none := by
    refine searchAlts_none (fun a ha => ?_)
    simp only [whatAlts, List.mem_cons, List.not_mem_nil, or_false] at ha
    rcases ha with rfl | rfl | rfl
    · exact occursCI_append_false (by decide) (by decide)
        (occursCI_mono (by decide) hwhat)
    · exact occursCI_append_false (by decide) (by decide)
        (occursCI_mono (by decide) hwhat)
    · exact occursCI_append_false (by decide) (by decide)
        (occursCI_space_letters (by decide) hX)
  have h0' : tryAlts whatAlts (spPlus (lazyCap sfxPT))
      ('w' :: (['h','a','t',' ','i','s',' '] ++ X)) = none := h0
  rw [matchPT]
  show searchAlts whatAlts (spPlus (lazyCap sfxPT))
    ('w' :: (['h','a','t',' ','i','s',' '] ++ X)) = none
  rw [searchAlts_cons_none h0']
  exact hrest

/-- `PRICE_QUERY` matches `what is X` at position 0, capturing the whole
letter word (so rule 2 beats `INFO_REQUEST`'s `what is` form). -/
theorem matchPQ_what_is {X : List Char} (hne : X ≠ [])
    (hX : ∀ c ∈ X, c ∈ lowerAlpha) :
    matchPQ (waiL ++ ' ' :: X) = some X := by
  have hk : spPlus (lazyCap sfxPQ) (' ' :: X) = some X := by
    cases X with
    | nil => exact absurd rfl hne
    | cons x xs =>
      rw [spPlus_space_cons ((lowerAlpha_facts hX).2.1 x (by simp))]
      refine lazyCap_full (by simp) ((lowerAlpha_facts hX).2.2.1) ?_ (by decide)
      intro r h1 h2 _
      exact sfxPQ_letters h2 (fun c hc => hX c (h1.subset hc))
  have hs1 : stripCI whatAposS (waiL ++ ' ' :: X) = none := by
    simp [stripCI, whatAposS, waiL, lcc, apos]
  have hs2 : stripCI ['w','h','a','t','s'] (waiL ++ ' ' :: X) = none := by
    simp [stripCI, waiL, lcc]
  have hs3 : stripCI ['w','h','a','t',' ','i','s'] (waiL ++ ' ' :: X) =
      some (' ' :: X) := stripCI_self_append _ _
  refine searchAlts_hit ?_
  show tryAlts (whatAposS :: ['w','h','a','t','s'] :: ['w','h','a','t',' ','i','s'] ::
    [['p','r','i','c','e',' ','o','f'],
     ['c','u','r','r','e','n','t',' ','p','r','i','c','e'],
     ['h','o','w',' ','m','u','c','h',' ','i','s']])
    (spPlus (lazyCap sfxPQ)) (waiL ++ ' ' :: X) = some X
  simp [tryAlts, hs1, hs2, hs3, hk]

/-- Cascade dispatch when `PRICE_QUERY` is the first hit. -/
theorem parseMessageL_pq_path {t X : List Char}
    (htrim : jsTrim t = t) (hPT : matchPT t = none) (hPQ : matchPQ t = some X) :
    parseMessageL t = coinIntent .priceQuery X := by
  rw [parseMessageL, htrim, hPT, hPQ]

/-- `parse` on `what is X`: the earlier `PRICE_QUERY` rule wins, so the
`what is` phrasing never reaches `INFO_REQUEST`. -/
theorem parse_what_is {X : List Char} (hne : X ≠ [])
    (hX : ∀ c ∈ X, c ∈ lowerAlpha)
    (hwhat : occursCI ['w','h','a','t'] X = false)
    (hstop : X ∉ ecnStop) :
    parseMessageL (waiL ++ ' ' :: X) =
      .priceQuery (normalizeCoinName (String.mk X)) (String.mk X) := by
  have htrim : jsTrim (waiL ++ ' ' :: X) = waiL ++ ' ' :: X := by
    have hsplit : waiL ++ ' ' :: X = (waiL ++ [' ']) ++ X := by simp
    rw [hsplit]
    exact @jsTrim_cons_append 'w' ['h','a','t',' ','i','s',' '] X
      (by decide) hne (lowerAlpha_facts hX).2.1
  rw [parseMessageL_pq_path htrim (matchPT_what_is hX hwhat) (matchPQ_what_is hne hX),
    coinIntent, extractCoinName_id hX hstop]

/-- C6: for every letter word `X` free of the earlier rules' keywords
(`what`, `price`, `portfolio`, `trending`, `hot`, `popular`, `top`,
`chart`, `graph` — recall `TRENDING` matches those as bare substrings)
and not itself a filler word, `tell me about X` and `info about X`
produce `InfoRequest` with the alias-resolved coin id; the third listed
phrasing `what is X` always matches the earlier `PRICE_QUERY` rule 2, so
it is excluded by the claim's own "matched no earlier rule" proviso. -/
theorem infoRequest_parse :
    (∀ X : List Char, X ≠ [] → (∀ c ∈ X, c ∈ lowerAlpha) →
      occursCI ['w','h','a','t'] X = false →
      occursCI ['p','r','i','c','e'] X = false →
      occursCI ['p','o','r','t','f','o','l','i','o'] X = false →
      occursCI ['t','r','e','n','d','i','n','g'] X = false →
      occursCI ['h','o','t'] X = false →
      occursCI ['p','o','p','u','l','a','r'] X = false →
      occursCI ['t','o','p'] X = false →
      occursCI ['c','h','a','r','t'] X = false →
      occursCI ['g','r','a','p','h'] X = false →
      X ∉ ecnStop →
      parseMessageL (tmaL ++ ' ' :: X) =
        .infoRequest (normalizeCoinName (String.mk X)) (String.mk X) ∧
      parseMessageL (iaL ++ ' ' :: X) =
        .infoRequest (normalizeCoinName (String.mk X)) (String.mk X)) ∧
    (∀ X : List Char, X ≠ [] → (∀ c ∈ X, c ∈ lowerAlpha) →
      occursCI ['w','h','a','t'] X = false → X ∉ ecnStop →
      parseMessageL (waiL ++ ' ' :: X) =
        .priceQuery (normalizeCoinName (String.mk X)) (String.mk X)) := by
  constructor
  · intro X hne hX h1 h2 h3 h4 h5 h6 h7 h8 h9 hstop
    exact ⟨parse_tell_me_about hne hX h1 h2 h3 h4 h5 h6 h7 h8 h9 hstop,
      parse_info_about hne hX h1 h2 h3 h4 h5 h6 h7 h8 h9 hstop⟩
  · intro X hne hX h1 hstop
    exact parse_what_is hne hX h1 hstop

/-- C6 witness: `tell me about cardano`, `info about doge` and
`what is solana` at concrete inputs. -/
theorem infoRequest_parse_witness :
    parseMessageL (tmaL ++ ' ' :: ['c','a','r','d','a','n','o']) =
      .infoRequest "cardano" "cardano" ∧
    parseMessageL (iaL ++ ' ' :: ['d','o','g','e']) =
      .infoRequest "dogecoin" "doge" ∧
    parseMessageL (waiL ++ ' ' :: ['s','o','l','a','n','a']) =
      .priceQuery "solana" "solana" := by
  have h1 := (infoRequest_parse.1 ['c','a','r','d','a','n','o'] (by decide) (by decide)
    (by decide) (by decide) (by decide) (by decide) (by decide) (by decide)
    (by decide) (by decide) (by decide) (by decide)).1
  have h2 := (infoRequest_parse.1 ['d','o','g','e'] (by decide) (by decide)
    (by decide) (by decide) (by decide) (by decide) (by decide) (by decide)
    (by decide) (by decide) (by decide) (by decide)).2
  have h3 := infoRequest_parse.2 ['s','o','l','a','n','a'] (by decide) (by decide)
    (by decide) (by decide)
  refine ⟨?_, ?_, ?_⟩
  · rw [h1]; decide
  · rw [h2]; decide
  · rw [h3]; decide

/-- The characters a decimal amount literal may contain. -/
def numChars : List Char :=
  ['0','1','2','3','4','5','6','7','8','9','.']

/-- Non-occurrence across the `verb ⧺ ' ' ⧺ amount ⧺ ' ' ⧺ word` shape,
from facts about each segment. -/
theorem occursCI_vnx {a : List Char} {c₀ : Char} {a' v N X : List Char}
    (ha : a = c₀ :: a')
    (h1 : occursCI a v = false) (h2 : spanPoss a v = false)
    (h3 : occursCI a [' '] = false) (h4 : spanPoss a [' '] = false)
    (h5 : ∀ d ∈ N, lcc c₀ ≠ lcc d)
    (h6 : occursCI a X = false) :
    occursCI a (v ++ ' ' :: (N ++ ' ' :: X)) = false := by
  have heq : v ++ ' ' :: (N ++ ' ' :: X) = v ++ ([' '] ++ (N ++ ([' '] ++ X))) := by
    simp
  rw [heq]
  refine occursCI_append_false h1 h2 ?_
  refine occursCI_append_false h3 h4 ?_
  refine occursCI_append_false ?_ ?_ ?_
  · subst ha
    exact occursCI_char c₀ (by simp) h5
  · subst ha
    exact spanPoss_false_of_char h5
  · exact occursCI_append_false h3 h4 h6

/-- The price-pattern keywords never occur in a well-formed
`verb ⧺ amount ⧺ word` message. -/
theorem occurs_vnx_alts {v N X : List Char}
    (hvdec : ∀ a ∈ whatAlts ++ pqAlts, occursCI a v = false ∧ spanPoss a v = false)
    (hN : ∀ d ∈ N, d ∈ numChars)
    (hwhat : occursCI ['w','h','a','t'] X = false)
    (hX : ∀ c ∈ X, c ∈ lowerAlpha) :
    ∀ a ∈ whatAlts ++ pqAlts, occursCI a (v ++ ' ' :: (N ++ ' ' :: X)) = false := by
  intro a ha
  obtain ⟨h1, h2⟩ := hvdec a ha
  have hdig : ∀ (c : Char), (∀ e ∈ numChars, lcc c ≠ lcc e) → ∀ d ∈ N, lcc c ≠ lcc d :=
    fun c hfact d hd => hfact d (hN d hd)
  simp only [whatAlts, pqAlts, List.mem_append, List.mem_cons, List.not_mem_nil,
    or_false] at ha
  rcases ha with (rfl | rfl | rfl) | (rfl | rfl | rfl | rfl | rfl | rfl)
  · exact occursCI_vnx rfl h1 h2 (by decide) (by decide) (hdig 'w' (by decide))
      (occursCI_mono (by decide) hwhat)
  · exact occursCI_vnx rfl h1 h2 (by decide) (by decide) (hdig 'w' (by decide))
      (occursCI_mono (by decide) hwhat)
  · exact occursCI_vnx rfl h1 h2 (by decide) (by decide) (hdig 'w' (by decide))
      (occursCI_space_letters (by decide) hX)
  · exact occursCI_vnx rfl h1 h2 (by decide) (by decide) (hdig 'w' (by decide))
      (occursCI_mono (by decide) hwhat)
  · exact occursCI_vnx rfl h1 h2 (by decide) (by decide) (hdig 'w' (by decide))
      (occursCI_mono (by decide) hwhat)
  · exact occursCI_vnx rfl h1 h2 (by decide) (by decide) (hdig 'w' (by decide))
      (occursCI_space_letters (by decide) hX)
  · exact occursCI_vnx rfl h1 h2 (by decide) (by decide) (hdig 'p' (by decide))
      (occursCI_space_letters (by decide) hX)
  · exact occursCI_vnx rfl h1 h2 (by decide) (by decide) (hdig 'c' (by decide))
      (occursCI_space_letters (by decide) hX)
  · exact occursCI_vnx rfl h1 h2 (by decide) (by decide) (hdig 'h' (by decide))
      (occursCI_space_letters (by decide) hX)

/-- `ADD_HOLDING`'s post-verb tail accepts `amount ⧺ ' ' ⧺ word` for an
integer amount. -/
theorem ah_tail_int {N X : List Char} (hNne : N ≠ [])
    (hNd : ∀ c ∈ N, c ∈ digitChars) (hXne : X ≠ [])
    (hX : ∀ c ∈ X, c ∈ lowerAlpha) :
    spPlus ahNum (' ' :: (N ++ ' ' :: X)) = some () := by
  have hdig : ∀ c ∈ N, digitCh c = true := by
    have : ∀ c ∈ digitChars, digitCh c = true := by decide
    exact fun c hc => this c (hNd c hc)
  have hnsp : ∀ c ∈ N, jsSpace c = false := by
    have : ∀ c ∈ digitChars, jsSpace c = false := by decide
    exact fun c hc => this c (hNd c hc)
  have hcapX : lazyCap sfxAH X = some X := by
    refine lazyCap_full hXne ((lowerAlpha_facts hX).2.2.1) ?_ (by decide)
    intro r h1 h2 _
    exact sfxAH_letters h2 (fun c hc => hX c (h1.subset hc))
  cases N with
  | nil => exact absurd rfl hNne
  | cons d ds =>
    rw [List.cons_append, spPlus_space_cons (hnsp d (by simp))]
    rw [ahNum, if_pos (hdig d (by simp))]
    have hdrop : (ds ++ ' ' :: X).dropWhile digitCh = ' ' :: X := by
      rw [dropWhile_all_append (fun c hc => hdig c (by simp [hc])),
        List.dropWhile_cons, if_neg (by decide)]
    rw [hdrop]
    have hfrac : ahFrac (' ' :: X) = none := by
      cases X with
      | nil => rfl
      | cons x xs =>
        rw [ahFrac]
        simp
    rw [hfrac]
    cases X with
    | nil => exact absurd rfl hXne
    | cons x xs =>
      rw [ahAfterNum, spPlus_space_cons ((lowerAlpha_facts hX).2.1 x (by simp))]
      rw [hcapX]

/-- `ADD_HOLDING`'s post-verb tail accepts a fractional amount. -/
theorem ah_tail_frac {ip fp X : List Char} (hipne : ip ≠ []) (hfpne : fp ≠ [])
    (hip : ∀ c ∈ ip, c ∈ digitChars) (hfp : ∀ c ∈ fp, c ∈ digitChars)
    (hXne : X ≠ []) (hX : ∀ c ∈ X, c ∈ lowerAlpha) :
    spPlus ahNum (' ' :: ((ip ++ '.' :: fp) ++ ' ' :: X)) = some () := by
  have hdigf : ∀ c ∈ digitChars, digitCh c = true := by decide
  have hnspf : ∀ c ∈ digitChars, jsSpace c = false := by decide
  have hcapX : lazyCap sfxAH X = some X := by
    refine lazyCap_full hXne ((lowerAlpha_facts hX).2.2.1) ?_ (by decide)
    intro r h1 h2 _
    exact sfxAH_letters h2 (fun c hc => hX c (h1.subset hc))
  have hafter : ahAfterNum (' ' :: X) = some () := by
    cases X with
    | nil => exact absurd rfl hXne
    | cons x xs =>
      rw [ahAfterNum, spPlus_space_cons ((lowerAlpha_facts hX).2.1 x (by simp))]
      rw [hcapX]
  cases ip with
  | nil => exact absurd rfl hipne
  | cons d ds =>
    rw [List.cons_append, List.cons_append,
      spPlus_space_cons (hnspf d (hip d (by simp)))]
    rw [ahNum, if_pos (hdigf d (hip d (by simp)))]
    have hassoc : (ds ++ '.' :: fp) ++ ' ' :: X = ds ++ '.' :: (fp ++ ' ' :: X) := by
      simp
    rw [hassoc]
    have hdrop : (ds ++ '.' :: (fp ++ ' ' :: X)).dropWhile digitCh =
        '.' :: (fp ++ ' ' :: X) := by
      rw [dropWhile_all_append (fun c hc => hdigf c (hip c (by simp [hc]))),
        List.dropWhile_cons, if_neg (by decide)]
    rw [hdrop]
    cases fp with
    | nil => exact absurd rfl hfpne
    | cons e es =>
      have hdrop2 : (e :: (es ++ ' ' :: X)).dropWhile digitCh = ' ' :: X := by
        rw [List.dropWhile_cons, if_pos (hdigf e (hfp e (by simp))),
          dropWhile_all_append (fun c hc => hdigf c (hfp c (by simp [hc]))),
          List.dropWhile_cons, if_neg (by decide)]
      have hfrac : ahFrac ('.' :: (e :: es ++ ' ' :: X)) = some () := by
        have hcons : (e :: es) ++ ' ' :: X = e :: (es ++ ' ' :: X) := by simp
        simp only [ahFrac, hcons]
        rw [if_pos (by simp [hdigf e (hfp e (by simp))]), hdrop2, hafter]
      have hcons2 : (e :: es) ++ ' ' :: X = e :: (es ++ ' ' :: X) := by simp
      rw [hfrac]

/-- `extractHoldingInfo`'s anchored attempt accepts `digits ⧺ ' ' ⧺ word`,
capturing the integer amount and the word. -/
theorem ehiHere_int {N X : List Char} (hNne : N ≠ [])
    (hNd : ∀ c ∈ N, c ∈ digitChars) (hXne : X ≠ [])
    (hX : ∀ c ∈ X, c ∈ lowerAlpha) :
    ehiHere (N ++ ' ' :: X) = some (ratVal N none, X) := by
  have hdigf : ∀ c ∈ digitChars, digitCh c = true := by decide
  cases N with
  | nil => exact absurd rfl hNne
  | cons n ns =>
    rw [List.cons_append, ehiHere, if_pos (hdigf n (hNd n (by simp)))]
    have htake : (ns ++ ' ' :: X).takeWhile digitCh = ns := by
      rw [takeWhile_all_append (fun c hc => hdigf c (hNd c (by simp [hc]))),
        List.takeWhile_cons, if_neg (by decide)]
      simp
    have hdrop : (ns ++ ' ' :: X).dropWhile digitCh = ' ' :: X := by
      rw [dropWhile_all_append (fun c hc => hdigf c (hNd c (by simp [hc]))),
        List.dropWhile_cons, if_neg (by decide)]
    simp only [htake, hdrop]
    cases X with
    | nil => exact absurd rfl hXne
    | cons x xs =>
      have hcap : ehiCap (' ' :: x :: xs) = some (x :: xs) := by
        rw [ehiCap]
        exact spPlus_dotPlus_word (by simp) hX
      simp [hcap]

/-- `extractHoldingInfo`'s anchored attempt accepts a fractional amount,
capturing integer and fractional digit parts. -/
theorem ehiHere_frac {ip fp X : List Char} (hipne : ip ≠ []) (hfpne : fp ≠ [])
    (hip : ∀ c ∈ ip, c ∈ digitChars) (hfp : ∀ c ∈ fp, c ∈ digitChars)
    (hXne : X ≠ []) (hX : ∀ c ∈ X, c ∈ lowerAlpha) :
    ehiHere ((ip ++ '.' :: fp) ++ ' ' :: X) = some (ratVal ip (some fp), X) := by
  have hdigf : ∀ c ∈ digitChars, digitCh c = true := by decide
  cases ip with
  | nil => exact absurd rfl hipne
  | cons n ns =>
    rw [List.cons_append, List.cons_append, ehiHere,
      if_pos (hdigf n (hip n (by simp)))]
    have hassoc : (ns ++ '.' :: fp) ++ ' ' :: X = ns ++ '.' :: (fp ++ ' ' :: X) := by
      simp
    rw [hassoc]
    have htake : (ns ++ '.' :: (fp ++ ' ' :: X)).takeWhile digitCh = ns := by
      rw [takeWhile_all_append (fun c hc => hdigf c (hip c (by simp [hc]))),
        List.takeWhile_cons, if_neg (by decide)]
      simp
    have hdrop : (ns ++ '.' :: (fp ++ ' ' :: X)).dropWhile digitCh =
        '.' :: (fp ++ ' ' :: X) := by
      rw [dropWhile_all_append (fun c hc => hdigf c (hip c (by simp [hc]))),
        List.dropWhile_cons, if_neg (by decide)]
    simp only [htake, hdrop]
    cases fp with
    | nil => exact absurd rfl hfpne
    | cons e es =>
      simp only [List.cons_append]
      have hdrop2 : (e :: (es ++ ' ' :: X)).dropWhile digitCh = ' ' :: X := by
        rw [List.dropWhile_cons, if_pos (hdigf e (hfp e (by simp))),
          dropWhile_all_append (fun c hc => hdigf c (hfp c (by simp [hc]))),
          List.dropWhile_cons, if_neg (by decide)]
      have htake2 : (es ++ ' ' :: X).takeWhile digitCh = es := by
        rw [takeWhile_all_append (fun c hc => hdigf c (hfp c (by simp [hc]))),
          List.takeWhile_cons, if_neg (by decide)]
        simp
      cases X with
      | nil => exact absurd rfl hXne
      | cons x xs =>
        have hcap : ehiCap (' ' :: x :: xs) = some (x :: xs) := by
          rw [ehiCap]
          exact spPlus_dotPlus_word (by simp) hX
        simp [hdrop2, htake2, hcap, hdigf e (hfp e (by simp))]

/-- `extractHoldingInfo` on `verb ⧺ ' ' ⧺ amount ⧺ ' ' ⧺ word`: the
digit-free verb prefix is skipped and the anchored hit decides the
result, with the name run through `extractCoinName`. -/
theorem extractHoldingInfo_hit {v A X : List Char} {q : ℚ}
    (hvd : ∀ c ∈ v, digitCh c = false) (hAne : A ≠ [])
    (hhere : ehiHere (A ++ ' ' :: X) = some (q, X))
    (hX : ∀ c ∈ X, c ∈ lowerAlpha) (hstop : X ∉ ecnStop) :
    extractHoldingInfo (v ++ ' ' :: (A ++ ' ' :: X)) = some (q, X) := by
  have heq : v ++ ' ' :: (A ++ ' ' :: X) = (v ++ [' ']) ++ (A ++ ' ' :: X) := by
    simp
  have hsp : ∀ c ∈ v ++ [' '], digitCh c = false := by
    intro c hc
    rcases List.mem_append.mp hc with h | h
    · exact hvd c h
    · simp only [List.mem_singleton] at h
      subst h
      decide
  have hsearch : ehiSearch (A ++ ' ' :: X) = some (q, X) := by
    cases A with
    | nil => exact absurd rfl hAne
    | cons a as =>
      rw [List.cons_append, ehiSearch, ← List.cons_append, hhere]
  rw [extractHoldingInfo, heq, ehiSearch_skip hsp, hsearch]
  show some (q, extractCoinName X) = some (q, X)
  rw [extractCoinName_id hX hstop]

/-- Trimming only removes characters. -/
theorem jsTrim_subset {s : List Char} : ∀ c ∈ jsTrim s, c ∈ s := by
  intro c hc
  rw [jsTrim, List.mem_reverse] at hc
  have h1 : c ∈ (s.dropWhile jsSpace).reverse :=
    (List.dropWhile_suffix jsSpace).subset hc
  rw [List.mem_reverse] at h1
  exact (List.dropWhile_suffix jsSpace).subset h1

/-- Rules 5–10 of the cascade never produce an `addHolding` intent. -/
theorem parseMessageRest_ne_addHolding {t : List Char} {q : ℚ} {cn o : String} :
    parseMessageRest t ≠ Intent.addHolding q cn o := by
  rw [parseMessageRest]
  cases hPV : testPV t with
  | true => simp
  | false =>
    simp only [Bool.false_eq_true, if_false]
    cases hTR : testTR t with
    | true => simp
    | false =>
      simp only [Bool.false_eq_true, if_false]
      cases hCH : matchCH t with
      | some cap => simp [coinIntent]
      | none =>
        cases hInfo : matchInfo t with
        | some cap => simp [coinIntent]
        | none =>
          cases hH : testHELP t <;> simp

/-- A digit-free message can never parse to `addHolding`: `ADD_HOLDING`
requires a digit, and every other rule builds a different intent. -/
theorem parseMessageL_nodigit {s : List Char} (hs : ∀ c ∈ s, digitCh c = false)
    {q : ℚ} {cn o : String} : parseMessageL s ≠ Intent.addHolding q cn o := by
  have hAH : matchAH (jsTrim s) = none :=
    matchAH_none (fun c hc => hs c (jsTrim_subset c hc))
  rw [parseMessageL]
  cases hPT : matchPT (jsTrim s) with
  | some cap => simp [coinIntent]
  | none =>
    cases hPQ : matchPQ (jsTrim s) with
    | some cap => simp [coinIntent]
    | none =>
      cases hPS : matchPS (jsTrim s) with
      | some cap => simp [coinIntent]
      | none =>
        rw [hAH]
        exact parseMessageRest_ne_addHolding

/-- Fail the three price patterns, match `ADD_HOLDING`, and dispatch
`extractHoldingInfo`'s result. -/
theorem parseMessageL_ah_path {t : List Char} {q : ℚ} {Y : List Char}
    (htrim : jsTrim t = t)
    (hPT : matchPT t = none) (hPQ : matchPQ t = none) (hPS : matchPS t = none)
    (hAH : matchAH t = some ())
    (hEHI : extractHoldingInfo t = some (q, Y)) :
    parseMessageL t =
      Intent.addHolding q (normalizeCoinName (String.mk Y)) (String.mk Y) := by
  rw [parseMessageL, htrim, hPT, hPQ, hPS, hAH, hEHI]

/-- The full `ADD_HOLDING` parse for a well-formed
`verb ⧺ amount ⧺ word` message, from per-verb decidable facts. -/
theorem parse_ah_core {v A X : List Char} {q : ℚ}
    (hAne : A ≠ []) (hA : ∀ d ∈ A, d ∈ numChars)
    (hX : ∀ c ∈ X, c ∈ lowerAlpha)
    (hwhat : occursCI ['w','h','a','t'] X = false)
    (hprice : occursCI ['p','r','i','c','e'] X = false)
    (hstop : X ∉ ecnStop)
    (hhere : ehiHere (A ++ ' ' :: X) = some (q, X))
    (hvdec : ∀ a ∈ whatAlts ++ pqAlts, occursCI a v = false ∧ spanPoss a v = false)
    (hpv : occursCI ['p','r','i','c','e'] v = false)
    (hpv2 : spanPoss ['p','r','i','c','e'] v = false)
    (hvd : ∀ c ∈ v, digitCh c = false)
    (htrim : jsTrim (v ++ ' ' :: (A ++ ' ' :: X)) = v ++ ' ' :: (A ++ ' ' :: X))
    (hAH : matchAH (v ++ ' ' :: (A ++ ' ' :: X)) = some ()) :
    parseMessageL (v ++ ' ' :: (A ++ ' ' :: X)) =
      Intent.addHolding q (normalizeCoinName (String.mk X)) (String.mk X) := by
  have hocc := occurs_vnx_alts hvdec hA hwhat hX
  have hPT : matchPT (v ++ ' ' :: (A ++ ' ' :: X)) = none :=
    searchAlts_none (fun a ha => hocc a (by simp [ha]))
  have hPQ : matchPQ (v ++ ' ' :: (A ++ ' ' :: X)) = none :=
    searchAlts_none (fun a ha => hocc a (by simp [ha]))
  have hPS : matchPS (v ++ ' ' :: (A ++ ' ' :: X)) = none := by
    refine matchPS_none ?_
    refine occursCI_vnx rfl hpv hpv2 (by decide) (by decide) ?_ hprice
    intro d hd
    exact (show ∀ e ∈ numChars, lcc 'p' ≠ lcc e by decide) d (hA d hd)
  have hEHI : extractHoldingInfo (v ++ ' ' :: (A ++ ' ' :: X)) = some (q, X) :=
    extractHoldingInfo_hit hvd hAne hhere hX hstop
  exact parseMessageL_ah_path htrim hPT hPQ hPS hAH hEHI

/-- `parse` on `verb ⧺ amount ⧺ word`, for any of the five
`ADD_HOLDING` verbs. -/
theorem parse_ah_generic {v A X : List Char} {q : ℚ}
    (hv : v ∈ ahVerbs)
    (hAne : A ≠ []) (hA : ∀ d ∈ A, d ∈ numChars)
    (hXne : X ≠ []) (hX : ∀ c ∈ X, c ∈ lowerAlpha)
    (hwhat : occursCI ['w','h','a','t'] X = false)
    (hprice : occursCI ['p','r','i','c','e'] X = false)
    (hstop : X ∉ ecnStop)
    (htail : spPlus ahNum (' ' :: (A ++ ' ' :: X)) = some ())
    (hhere : ehiHere (A ++ ' ' :: X) = some (q, X)) :
    parseMessageL (v ++ ' ' :: (A ++ ' ' :: X)) =
      Intent.addHolding q (normalizeCoinName (String.mk X)) (String.mk X) := by
  have hXsp := (lowerAlpha_facts hX).2.1
  have hAnsp : ∀ d ∈ A, jsSpace d = false :=
    fun d hd => (show ∀ e ∈ numChars, jsSpace e = false by decide) d (hA d hd)
  have hXne2 : A ++ ' ' :: X ≠ [] := by simp
  simp only [ahVerbs, List.mem_cons, List.not_mem_nil, or_false] at hv
  rcases hv with rfl | rfl | rfl | rfl | rfl
  · refine parse_ah_core hAne hA hX hwhat hprice hstop hhere
      (by decide) (by decide) (by decide) (by decide) ?_ ?_
    · have heq : ['i',' ','h','a','v','e'] ++ ' ' :: (A ++ ' ' :: X) =
          'i' :: (([' ','h','a','v','e',' '] ++ A ++ [' ']) ++ X) := by simp
      rw [heq]
      exact jsTrim_cons_append (by decide) hXne hXsp
    · refine searchAlts_hit ?_
      show tryAlts (['i',' ','h','a','v','e'] ::
        [['i',' ','o','w','n'], ['a','d','d'], ['b','u','y'], ['b','o','u','g','h','t']])
        (spPlus ahNum) (['i',' ','h','a','v','e'] ++ ' ' :: (A ++ ' ' :: X)) = some ()
      rw [tryAlts, stripCI_self_append]
      simp [htail]
  · refine parse_ah_core hAne hA hX hwhat hprice hstop hhere
      (by decide) (by decide) (by decide) (by decide) ?_ ?_
    · have heq : ['i',' ','o','w','n'] ++ ' ' :: (A ++ ' ' :: X) =
          'i' :: (([' ','o','w','n',' '] ++ A ++ [' ']) ++ X) := by simp
      rw [heq]
      exact jsTrim_cons_append (by decide) hXne hXsp
    · refine searchAlts_hit ?_
      show tryAlts (['i',' ','h','a','v','e'] :: ['i',' ','o','w','n'] ::
        [['a','d','d'], ['b','u','y'], ['b','o','u','g','h','t']])
        (spPlus ahNum) (['i',' ','o','w','n'] ++ ' ' :: (A ++ ' ' :: X)) = some ()
      have h0 : stripCI ['i',' ','h','a','v','e']
          (['i',' ','o','w','n'] ++ ' ' :: (A ++ ' ' :: X)) = none := by
        simp [stripCI, lcc]
      rw [tryAlts, h0, tryAlts, stripCI_self_append]
      simp [htail]
  · refine parse_ah_core hAne hA hX hwhat hprice hstop hhere
      (by decide) (by decide) (by decide) (by decide) ?_ ?_
    · have heq : ['a','d','d'] ++ ' ' :: (A ++ ' ' :: X) =
          'a' :: ((['d','d',' '] ++ A ++ [' ']) ++ X) := by simp
      rw [heq]
      exact jsTrim_cons_append (by decide) hXne hXsp
    · refine searchAlts_hit ?_
      show tryAlts (['i',' ','h','a','v','e'] :: ['i',' ','o','w','n'] ::
        ['a','d','d'] :: [['b','u','y'], ['b','o','u','g','h','t']])
        (spPlus ahNum) (['a','d','d'] ++ ' ' :: (A ++ ' ' :: X)) = some ()
      have h0 : stripCI ['i',' ','h','a','v','e']
          (['a','d','d'] ++ ' ' :: (A ++ ' ' :: X)) = none := by
        simp [stripCI, lcc]
      have h1 : stripCI ['i',' ','o','w','n']
          (['a','d','d'] ++ ' ' :: (A ++ ' ' :: X)) = none := by
        simp [stripCI, lcc]
      rw [tryAlts, h0, tryAlts, h1, tryAlts, stripCI_self_append]
      simp [htail]
  · refine parse_ah_core hAne hA hX hwhat hprice hstop hhere
      (by decide) (by decide) (by decide) (by decide) ?_ ?_
    · have heq : ['b','u','y'] ++ ' ' :: (A ++ ' ' :: X) =
          'b' :: ((['u','y',' '] ++ A ++ [' ']) ++ X) := by simp
      rw [heq]
      exact jsTrim_cons_append (by decide) hXne hXsp
    · refine searchAlts_hit ?_
      show tryAlts (['i',' ','h','a','v','e'] :: ['i',' ','o','w','n'] ::
        ['a','d','d'] :: ['b','u','y'] :: [['b','o','u','g','h','t']])
        (spPlus ahNum) (['b','u','y'] ++ ' ' :: (A ++ ' ' :: X)) = some ()
      have h0 : stripCI ['i',' ','h','a','v','e']
          (['b','u','y'] ++ ' ' :: (A ++ ' ' :: X)) = none := by
        simp [stripCI, lcc]
      have h1 : stripCI ['i',' ','o','w','n']
          (['b','u','y'] ++ ' ' :: (A ++ ' ' :: X)) = none := by
        simp [stripCI, lcc]
      have h2 : stripCI ['a','d','d']
          (['b','u','y'] ++ ' ' :: (A ++ ' ' :: X)) = none := by
        simp [stripCI, lcc]
      rw [tryAlts, h0, tryAlts, h1, tryAlts, h2, tryAlts, stripCI_self_append]
      simp [htail]
  · refine parse_ah_core hAne hA hX hwhat hprice hstop hhere
      (by decide) (by decide) (by decide) (by decide) ?_ ?_
    · have heq : ['b','o','u','g','h','t'] ++ ' ' :: (A ++ ' ' :: X) =
          'b' :: ((['o','u','g','h','t',' '] ++ A ++ [' ']) ++ X) := by simp
      rw [heq]
      exact jsTrim_cons_append (by decide) hXne hXsp
    · refine searchAlts_hit ?_
      show tryAlts (['i',' ','h','a','v','e'] :: ['i',' ','o','w','n'] ::
        ['a','d','d'] :: ['b','u','y'] :: ['b','o','u','g','h','t'] :: [])
        (spPlus ahNum) (['b','o','u','g','h','t'] ++ ' ' :: (A ++ ' ' :: X)) = some ()
      have h0 : stripCI ['i',' ','h','a','v','e']
          (['b','o','u','g','h','t'] ++ ' ' :: (A ++ ' ' :: X)) = none := by
        simp [stripCI, lcc]
      have h1 : stripCI ['i',' ','o','w','n']
          (['b','o','u','g','h','t'] ++ ' ' :: (A ++ ' ' :: X)) = none := by
        simp [stripCI, lcc]
      have h2 : stripCI ['a','d','d']
          (['b','o','u','g','h','t'] ++ ' ' :: (A ++ ' ' :: X)) = none := by
        simp [stripCI, lcc]
      have h3 : stripCI ['b','u','y']
          (['b','o','u','g','h','t'] ++ ' ' :: (A ++ ' ' :: X)) = none := by
        simp [stripCI, lcc]
      rw [tryAlts, h0, tryAlts, h1, tryAlts, h2, tryAlts, h3, tryAlts,
        stripCI_self_append]
      simp [htail]

/-- C2 (amended).  For every `ADD_HOLDING` verb and every message
`verb ⧺ ' ' ⧺ amount ⧺ ' ' ⧺ name` whose amount is a digit string (with
optional fractional part) and whose name is a lowercase word avoiding the
earlier patterns' keywords, `parseMessage` returns `addHolding` with the
amount's `parseFloat` value — including amount `0`, which the code does
NOT reject — and the alias-resolved name; a digit-free message (in
particular one with a negative or non-numeric amount token, which
`ADD_HOLDING`'s `\d+` can never match as an amount) never parses to
`addHolding`. -/
theorem addHolding_parse_amended :
    (∀ v ∈ ahVerbs, ∀ N X : List Char,
        N ≠ [] → (∀ c ∈ N, c ∈ digitChars) → X ≠ [] → (∀ c ∈ X, c ∈ lowerAlpha) →
        occursCI ['w','h','a','t'] X = false → occursCI ['p','r','i','c','e'] X = false →
        X ∉ ecnStop →
        parseMessageL (v ++ ' ' :: (N ++ ' ' :: X)) =
          Intent.addHolding (ratVal N none)
            (normalizeCoinName (String.mk X)) (String.mk X)) ∧
    (∀ v ∈ ahVerbs, ∀ ip fp X : List Char,
        ip ≠ [] → fp ≠ [] → (∀ c ∈ ip, c ∈ digitChars) → (∀ c ∈ fp, c ∈ digitChars) →
        X ≠ [] → (∀ c ∈ X, c ∈ lowerAlpha) →
        occursCI ['w','h','a','t'] X = false → occursCI ['p','r','i','c','e'] X = false →
        X ∉ ecnStop →
        parseMessageL (v ++ ' ' :: ((ip ++ '.' :: fp) ++ ' ' :: X)) =
          Intent.addHolding (ratVal ip (some fp))
            (normalizeCoinName (String.mk X)) (String.mk X)) ∧
    (∀ s : List Char, (∀ c ∈ s, digitCh c = false) →
        ∀ (q : ℚ) (cn o : String), parseMessageL s ≠ Intent.addHolding q cn o) := by
  have hsub : ∀ e ∈ digitChars, e ∈ numChars := by decide
  refine ⟨?_, ?_, ?_⟩
  · intro v hv N X hNne hNd hXne hX hwhat hprice hstop
    exact parse_ah_generic hv hNne (fun d hd => hsub d (hNd d hd)) hXne hX
      hwhat hprice hstop (ah_tail_int hNne hNd hXne hX)
      (ehiHere_int hNne hNd hXne hX)
  · intro v hv ip fp X hipne hfpne hip hfp hXne hX hwhat hprice hstop
    refine parse_ah_generic hv (by simp) ?_ hXne hX hwhat hprice hstop
      (ah_tail_frac hipne hfpne hip hfp hXne hX)
      (ehiHere_frac hipne hfpne hip hfp hXne hX)
    intro d hd
    rcases List.mem_append.mp hd with h | h
    · exact hsub d (hip d h)
    · rcases List.mem_cons.mp h with rfl | h
      · decide
      · exact hsub d (hfp d h)
  · intro s hs q cn o
    exact parseMessageL_nodigit hs

/-- C2 counterexample.  `"i have 0 btc"` parses to `addHolding` with
amount `0`: the claim's "for N ≤ 0 ... never AddHolding" fails at `N = 0`
(`\d+` matches `0` and the code performs no positivity check).  A
negative amount, by contrast, does fall through: `"i have -5 btc"` parses
to `general` because `ADD_HOLDING` finds no digit run in verb position
and the minus sign is not part of `\d+`. -/
theorem addHolding_zero_counterexample :
    parseMessage "i have 0 btc" =
      Intent.addHolding (ratVal ['0'] none) "bitcoin" "btc" ∧
    ratVal ['0'] none = 0 ∧
    parseMessage "i have -5 btc" = Intent.general "i have -5 btc" := by
  refine ⟨rfl, ?_, rfl⟩
  simp [ratVal, show digitsVal ['0'] = 0 by decide]

/-- Witness for the amended C2 theorem: `"i own 12 eth"` yields
`addHolding 12 ethereum/eth`, and the digit-free `"hello"` can never be
an `addHolding`. -/
theorem addHolding_parse_witness :
    parseMessageL (['i',' ','o','w','n'] ++ ' ' :: (['1','2'] ++ ' ' :: ['e','t','h'])) =
      Intent.addHolding (ratVal ['1','2'] none)
        (normalizeCoinName (String.mk ['e','t','h'])) (String.mk ['e','t','h']) ∧
    parseMessageL ['h','e','l','l','o'] ≠ Intent.addHolding 1 "a" "a" :=
  ⟨addHolding_parse_amended.1 ['i',' ','o','w','n'] (by decide) ['1','2'] ['e','t','h']
      (by decide) (by decide) (by decide) (by decide) (by decide) (by decide) (by decide),
   addHolding_parse_amended.2.2 ['h','e','l','l','o'] (by decide) 1 "a" "a"⟩
